import Mathlib

/-!
Verification of the LinkCloud concept-graph engine.

This file is a shallow embedding of the aggregation core of `src/server.js`
(edge-key construction, the submit endpoint, the SQLite-backed edge and
submission-record tables, graph snapshots) and of the client analytics and
layout engine of `src/public/app.js` (degree/hub/BFS metrics, the Focused
Radial layout and the Hierarchical Layered layout), together with proofs of
the behavioural properties claimed by the specification.

Modelling conventions:
- JS `Map`/`Set` objects are modelled as insertion-ordered association lists
  (`mget`/`mset`) resp. insertion-ordered duplicate-free lists (`sadd`).
- SQLite tables are lists of rows in insertion (rowid) order; `ORDER BY` is a
  stable merge sort.
- JS strings are Lean `String`s; `trim`, `toLowerCase` and `<` are modelled
  directly on the character data (`jsTrim`, `jsToLower`, `jsStrLt`) because
  the claims only exercise code points where JS UTF-16 semantics and Unicode
  code-point semantics agree.
- JS numbers that the code keeps integral are `Nat` (with
  `Number.MAX_SAFE_INTEGER` as the literal `2 ^ 53 - 1`); fractional pixel
  arithmetic is exact `ℚ`.
-/

namespace LinkCloud

/-! ### JS string primitives -/

/-- The whitespace characters stripped by JS `String.prototype.trim` that the
model supports (ASCII whitespace, NBSP and BOM). -/
def isJsWhitespace (c : Char) : Bool :=
  c.toNat == 9 || c.toNat == 10 || c.toNat == 11 || c.toNat == 12 ||
  c.toNat == 13 || c.toNat == 32 || c.toNat == 160 || c.toNat == 65279

/-- ASCII lower-casing of one character, as done by `toLowerCase` on the
code points the application exercises. -/
def lowerChar (c : Char) : Char :=
  if 'A' ≤ c ∧ c ≤ 'Z' then Char.ofNat (c.toNat + 32) else c

def trimChars (l : List Char) : List Char :=
  ((l.dropWhile isJsWhitespace).reverse.dropWhile isJsWhitespace).reverse

/-- JS `s.trim()`. -/
def jsTrim (s : String) : String := ⟨trimChars s.data⟩

/-- JS `s.toLowerCase()`. -/
def jsToLower (s : String) : String := ⟨s.data.map lowerChar⟩

/-- JS `s.trim().toLowerCase()`, the concept normalization used throughout
`src/server.js`. -/
def jsNorm (s : String) : String := jsToLower (jsTrim s)

/-- JS `<` on strings: lexicographic comparison of the code units.  (For the
code points exercised here this coincides with code-point order.) -/
def jsLt : List Char → List Char → Bool
  | [], [] => false
  | [], _ :: _ => true
  | _ :: _, [] => false
  | a :: as, b :: bs => if a < b then true else if b < a then false else jsLt as bs

def jsStrLt (a b : String) : Bool := jsLt a.data b.data

theorem jsLt_asymm : ∀ x y : List Char, jsLt x y = true → jsLt y x = false := by
  intro x
  induction x with
  | nil => intro y h; cases y with
    | nil => simp [jsLt] at h
    | cons b bs => simp [jsLt]
  | cons a as ih =>
    intro y h
    cases y with
    | nil => simp [jsLt] at h
    | cons b bs =>
      simp only [jsLt] at h ⊢
      rcases lt_trichotomy a b with hab | hab | hab
      · rw [if_neg (asymm hab), if_pos hab]
      · subst hab
        rw [if_neg (lt_irrefl a), if_neg (lt_irrefl a)] at h ⊢
        exact ih bs h
      · rw [if_pos hab] at h ⊢
        rw [if_neg (asymm hab)] at h
        simp at h

theorem jsLt_conn : ∀ x y : List Char, jsLt x y = false → jsLt y x = false → x = y := by
  intro x
  induction x with
  | nil => intro y h _; cases y with
    | nil => rfl
    | cons b bs => simp [jsLt] at h
  | cons a as ih =>
    intro y h h2
    cases y with
    | nil => simp [jsLt] at h2
    | cons b bs =>
      simp only [jsLt] at h h2
      rcases lt_trichotomy a b with hab | hab | hab
      · rw [if_pos hab] at h; simp at h
      · subst hab
        rw [if_neg (lt_irrefl a), if_neg (lt_irrefl a)] at h h2
        rw [ih bs h h2]
      · rw [if_pos hab] at h2; simp at h2

/-! ### Association lists with JS `Map` semantics (insertion order kept,
`set` replaces in place) and JS `Set` semantics -/

def mget [DecidableEq α] : List (α × β) → α → Option β
  | [], _ => none
  | (k', v) :: r, k => if k' = k then some v else mget r k

def mset [DecidableEq α] : List (α × β) → α → β → List (α × β)
  | [], k, v => [(k, v)]
  | (k', v') :: r, k, v => if k' = k then (k, v) :: r else (k', v') :: mset r k v

/-- JS `Set.prototype.add`: append if absent. -/
def sadd [DecidableEq α] (s : List α) (x : α) : List α :=
  if x ∈ s then s else s ++ [x]

@[simp] theorem mget_nil [DecidableEq α] (k : α) : mget ([] : List (α × β)) k = none := rfl

theorem mget_mset_self [DecidableEq α] (m : List (α × β)) (k : α) (v : β) :
    mget (mset m k v) k = some v := by
  induction m with
  | nil => simp [mset, mget]
  | cons p r ih =>
    obtain ⟨k', v'⟩ := p
    by_cases h : k' = k
    · subst h; simp [mset, mget]
    · simp only [mset, if_neg h, mget, ih, if_neg h]

theorem mget_mset_ne [DecidableEq α] (m : List (α × β)) (k k' : α) (v : β)
    (h : k' ≠ k) : mget (mset m k v) k' = mget m k' := by
  induction m with
  | nil =>
    simp only [mset, mget]
    rw [if_neg (Ne.symm h)]
  | cons p r ih =>
    obtain ⟨k₀, v₀⟩ := p
    by_cases h0 : k₀ = k
    · subst h0
      simp only [mset, if_pos rfl, mget]
      rw [if_neg (Ne.symm h), if_neg (Ne.symm h)]
    · simp only [mset, if_neg h0, mget]
      by_cases h1 : k₀ = k'
      · rw [if_pos h1, if_pos h1]
      · rw [if_neg h1, if_neg h1, ih]

/-! ### Server data model (`src/server.js`) -/

/-- A row of the `edges` table: `UNIQUE(session_code, edge_key)`, list order
is rowid (insertion) order. -/
structure EdgeRow where
  session_code : String
  concept_a : String
  concept_b : String
  edge_key : String
  weight : Nat
deriving DecidableEq

/-- A row of the `session_edges` table:
`UNIQUE(session_id, session_code, edge_key)`. -/
structure SessionEdgeRow where
  session_id : String
  session_code : String
  edge_key : String
deriving DecidableEq

/-- The mutable SQLite state reached by the submit endpoint: the `sessions`
table (codes only), the `edges` table and the `session_edges` table. -/
structure DB where
  sessions : List String
  edges : List EdgeRow
  session_edges : List SessionEdgeRow
deriving DecidableEq

/-- `buildEdgeKey` of `src/server.js`: normalize both concepts and join with
`::`, smaller string first. -/
def buildEdgeKey (conceptA conceptB : String) : String :=
  let a := jsNorm conceptA
  let b := jsNorm conceptB
  if jsStrLt a b then a ++ ("::") ++ b else b ++ ("::") ++ a

def findEdge (es : List EdgeRow) (sc k : String) : Option EdgeRow :=
  es.find? (fun e => e.session_code == sc && e.edge_key == k)

/-- The `upsertEdge` prepared statement: insert with weight 1, or on conflict
on `(session_code, edge_key)` increment the stored weight (concepts keep their
stored values).  Returns the resulting row and the new table. -/
def upsertEdge (es : List EdgeRow) (sc ca cb k : String) : EdgeRow × List EdgeRow :=
  match findEdge es sc k with
  | some e =>
      ({ e with weight := e.weight + 1 },
        es.map (fun r =>
          if r.session_code == sc && r.edge_key == k then { r with weight := r.weight + 1 } else r))
  | none =>
      let r : EdgeRow := ⟨sc, ca, cb, k, 1⟩
      (r, es ++ [r])

/-- The `hasSessionEdge` prepared statement. -/
def hasSessionEdge (db : DB) (sid sc k : String) : Bool :=
  db.session_edges.any (fun r =>
    r.session_id == sid && r.session_code == sc && r.edge_key == k)

/-- Weight currently stored for `(sc, k)`, `0` if the edge row is absent. -/
def edgeWeight (db : DB) (sc k : String) : Nat :=
  match findEdge db.edges sc k with
  | some e => e.weight
  | none => 0

/-- `validateSessionCode` of `src/server.js`. -/
def validateSessionCode (code : String) : Option String :=
  if code = ("") then none
  else
    let normalized := jsNorm code
    if normalized = ("") ∨ 64 < normalized.length then none else some normalized

/-! A stable insertion sort (placing each element before the first element it
compares `le` to keeps the original order among ties).  Used to model both
SQL `ORDER BY` and JS `Array.prototype.sort` (stable per ES2019). -/

def insertLe (le : α → α → Bool) (x : α) : List α → List α
  | [] => [x]
  | y :: ys => if le x y then x :: y :: ys else y :: insertLe le x ys

def sortByLe (le : α → α → Bool) : List α → List α
  | [] => []
  | x :: xs => insertLe le x (sortByLe le xs)

theorem insertLe_perm (le : α → α → Bool) (x : α) (l : List α) :
    List.Perm (insertLe le x l) (x :: l) := by
  induction l with
  | nil => exact List.Perm.refl _
  | cons y ys ih =>
    by_cases h : le x y = true
    · simp [insertLe, h]
    · simp only [insertLe, if_neg h]
      exact ((ih.cons y).trans (List.Perm.swap x y ys))

theorem sortByLe_perm (le : α → α → Bool) (l : List α) :
    List.Perm (sortByLe le l) l := by
  induction l with
  | nil => exact List.Perm.refl _
  | cons x xs ih => exact (insertLe_perm le x (sortByLe le xs)).trans (ih.cons x)

theorem insertLe_sorted (le : α → α → Bool)
    (htrans : ∀ a b c, le a b = true → le b c = true → le a c = true)
    (htotal : ∀ a b, le a b = true ∨ le b a = true)
    (x : α) (l : List α) (hl : l.Pairwise (fun a b => le a b = true)) :
    (insertLe le x l).Pairwise (fun a b => le a b = true) := by
  induction l with
  | nil => simp [insertLe]
  | cons y ys ih =>
    rcases List.pairwise_cons.mp hl with ⟨hy, hys⟩
    by_cases h : le x y = true
    · simp only [insertLe, if_pos h]
      refine List.pairwise_cons.mpr ⟨?_, hl⟩
      intro z hz
      rcases List.mem_cons.mp hz with rfl | hz
      · exact h
      · exact htrans x y z h (hy z hz)
    · simp only [insertLe, if_neg h]
      refine List.pairwise_cons.mpr ⟨?_, ih hys⟩
      intro z hz
      rcases List.mem_cons.mp ((insertLe_perm le x ys).mem_iff.mp hz) with rfl | hz'
      · rcases htotal z y with h1 | h1
        · exact absurd h1 h
        · exact h1
      · exact hy z hz'

theorem sortByLe_sorted (le : α → α → Bool)
    (htrans : ∀ a b c, le a b = true → le b c = true → le a c = true)
    (htotal : ∀ a b, le a b = true ∨ le b a = true) (l : List α) :
    (sortByLe le l).Pairwise (fun a b => le a b = true) := by
  induction l with
  | nil => simp [sortByLe]
  | cons x xs ih => exact insertLe_sorted le htrans htotal x _ ih

/-- SQL `ORDER BY weight DESC, concept_a ASC` as a boolean `le`. -/
def edgeRowLe (a b : EdgeRow) : Bool :=
  decide (b.weight < a.weight) ||
    (a.weight == b.weight && !(jsStrLt b.concept_a a.concept_a))

/-- The `listEdges` prepared statement: rows of one scope, weight descending,
ties by stored `concept_a` ascending. -/
def listEdgesFor (db : DB) (sc : String) : List EdgeRow :=
  sortByLe edgeRowLe (db.edges.filter (fun e => e.session_code == sc))

/-- A node of a graph snapshot (`{ id, label }`). -/
structure GNode where
  id : String
  label : String
deriving DecidableEq

/-- An edge of a graph snapshot; `src`/`dst` model the JS fields
`from`/`to` (`from` is a Lean keyword). -/
structure GEdge where
  src : String
  dst : String
  weight : Nat
deriving DecidableEq

/-- A graph snapshot `{ nodes, edges }`. -/
structure Graph where
  nodes : List GNode
  edges : List GEdge
deriving DecidableEq

/-- `getGraph` of `src/server.js`: list the scope's rows in sorted order, then
collect each trimmed endpoint into the node map at first appearance. -/
def getGraph (db : DB) (sessionCode : String) : Graph :=
  let rows := listEdgesFor db sessionCode
  let nodesMap := rows.foldl (fun nm r =>
    let a := jsTrim r.concept_a
    let b := jsTrim r.concept_b
    let nm1 := if (mget nm a).isSome then nm else mset nm a (GNode.mk a a)
    if (mget nm1 b).isSome then nm1 else mset nm1 b (GNode.mk b b))
    ([] : List (String × GNode))
  { nodes := nodesMap.map Prod.snd
    edges := rows.map (fun r => ⟨jsTrim r.concept_a, jsTrim r.concept_b, r.weight⟩) }

/-- Result of the `POST /api/session/:code/submit` handler: an HTTP error
(with its message), a duplicate response or a recorded (`ok`) response. -/
inductive Outcome where
  | error (msg : String)
  | duplicate (graph : Graph)
  | ok (edge : EdgeRow) (graph : Graph)
deriving DecidableEq

/-- The `POST /api/session/:code/submit` handler of `src/server.js`
(specialized to its database effects; the socket broadcast carries the same
snapshot that is returned). -/
def submit (db : DB) (sessionId codeRaw source target : String) : Outcome × DB :=
  match validateSessionCode codeRaw with
  | none => (.error ("Invalid session code."), db)
  | some sessionCode =>
    if sessionCode ∈ db.sessions then
      if source = ("") ∨ target = ("") then
        (.error ("Both source and target concepts are required."), db)
      else
        let normalizedSource := jsNorm source
        let normalizedTarget := jsNorm target
        if normalizedSource = ("") ∨ normalizedTarget = ("") ∨
            normalizedSource = normalizedTarget then
          (.error ("Concepts must be non-empty and distinct."), db)
        else
          let edgeKey := buildEdgeKey normalizedSource normalizedTarget
          if hasSessionEdge db sessionId sessionCode edgeKey then
            (.duplicate (getGraph db sessionCode), db)
          else
            let db1 : DB :=
              { db with session_edges :=
                  db.session_edges ++ [⟨sessionId, sessionCode, edgeKey⟩] }
            let up := upsertEdge db1.edges sessionCode normalizedSource normalizedTarget edgeKey
            let db2 : DB := { db1 with edges := up.2 }
            (.ok up.1 (getGraph db2 sessionCode), db2)
    else
      (.error ("Session not found."), db)

/-!  ### C5: the edge key is order-independent  -/

/-- C5: for concept strings whose normalized forms are distinct and
non-empty, `buildEdgeKey a b = buildEdgeKey b a`. -/
theorem buildEdgeKey_comm (a b : String)
    (hna : jsNorm a ≠ ("")) (hnb : jsNorm b ≠ (""))
    (hne : jsNorm a ≠ jsNorm b) :
    buildEdgeKey a b = buildEdgeKey b a := by
  unfold buildEdgeKey
  cases hlt : jsStrLt (jsNorm a) (jsNorm b) with
  | true =>
      rw [if_pos hlt, if_neg]
      rw [jsStrLt, jsLt_asymm _ _ hlt]
      simp
  | false =>
      rw [if_neg (by simp [hlt])]
      cases hlt2 : jsStrLt (jsNorm b) (jsNorm a) with
      | true => rw [if_pos hlt2]
      | false =>
          exact absurd (String.ext (jsLt_conn _ _ hlt hlt2)) hne

/-- Witness for C5 at a concrete valid pair. -/
theorem buildEdgeKey_comm_witness :
    (jsNorm (" Apple") ≠ ("") ∧ jsNorm ("Banana ") ≠ ("") ∧
      jsNorm (" Apple") ≠ jsNorm ("Banana ")) ∧
    buildEdgeKey (" Apple") ("Banana ") = buildEdgeKey ("Banana ") (" Apple") :=
  ⟨by decide, buildEdgeKey_comm (" Apple") ("Banana ") (by decide) (by decide) (by decide)⟩

/-!  ### C6: invalid concept pairs are rejected without mutation  -/

/-- C6: if either concept normalizes to the empty string, or both normalize
to the same value, the submit handler answers with an explicit error and
leaves the database untouched. -/
theorem submit_invalid_no_mutation (db : DB) (sid codeRaw source target : String)
    (h : jsNorm source = ("") ∨ jsNorm target = ("") ∨ jsNorm source = jsNorm target) :
    ∃ msg, submit db sid codeRaw source target = (.error msg, db) := by
  unfold submit
  cases hv : validateSessionCode codeRaw with
  | none => exact ⟨_, rfl⟩
  | some sc =>
    simp only
    by_cases hs : sc ∈ db.sessions
    · rw [if_pos hs]
      by_cases he : source = ("") ∨ target = ("")
      · rw [if_pos he]; exact ⟨_, rfl⟩
      · rw [if_neg he, if_pos h]; exact ⟨_, rfl⟩
    · rw [if_neg hs]; exact ⟨_, rfl⟩

/-- Witness for C6: submitting a whitespace-only source in an existing scope. -/
theorem submit_invalid_no_mutation_witness :
    (jsNorm ("  ") = ("") ∨ jsNorm ("x") = ("") ∨ jsNorm ("  ") = jsNorm ("x")) ∧
    (∃ msg, submit (DB.mk [("demo")] [] []) ("s1") ("demo") ("  ") ("x") =
      (.error msg, DB.mk [("demo")] [] [])) :=
  ⟨by decide,
    submit_invalid_no_mutation (DB.mk [("demo")] [] []) ("s1") ("demo") ("  ") ("x")
      (by decide)⟩

/-!  ### The recorded path of submit  -/

/-- The edge key the submit handler computes for a source/target pair. -/
def submittedKey (source target : String) : String :=
  buildEdgeKey (jsNorm source) (jsNorm target)

/-- The database state after the recorded path of submit: the submission
record is inserted and the edge upserted. -/
def recordedDB (db : DB) (sid sc source target : String) : DB :=
  ⟨db.sessions,
    (upsertEdge db.edges sc (jsNorm source) (jsNorm target) (submittedKey source target)).2,
    db.session_edges ++ [⟨sid, sc, submittedKey source target⟩]⟩

theorem submit_recorded (db : DB) (sid codeRaw source target sc : String)
    (hv : validateSessionCode codeRaw = some sc) (hs : sc ∈ db.sessions)
    (hsrc : source ≠ ("")) (htgt : target ≠ (""))
    (hns : jsNorm source ≠ ("")) (hnt : jsNorm target ≠ (""))
    (hne : jsNorm source ≠ jsNorm target)
    (hfresh : hasSessionEdge db sid sc (submittedKey source target) = false) :
    submit db sid codeRaw source target =
      (.ok (upsertEdge db.edges sc (jsNorm source) (jsNorm target) (submittedKey source target)).1
          (getGraph (recordedDB db sid sc source target) sc),
        recordedDB db sid sc source target) := by
  unfold submit
  rw [hv]
  simp only [if_pos hs, if_neg (not_or.mpr ⟨hsrc, htgt⟩),
    if_neg (not_or.mpr ⟨hns, not_or.mpr ⟨hnt, hne⟩⟩)]
  rw [show buildEdgeKey (jsNorm source) (jsNorm target) = submittedKey source target from rfl]
  rw [hfresh]
  simp only [Bool.false_eq_true, if_false]
  rfl

theorem submit_duplicate (db : DB) (sid codeRaw source target sc : String)
    (hv : validateSessionCode codeRaw = some sc) (hs : sc ∈ db.sessions)
    (hsrc : source ≠ ("")) (htgt : target ≠ (""))
    (hns : jsNorm source ≠ ("")) (hnt : jsNorm target ≠ (""))
    (hne : jsNorm source ≠ jsNorm target)
    (hdup : hasSessionEdge db sid sc (submittedKey source target) = true) :
    submit db sid codeRaw source target = (.duplicate (getGraph db sc), db) := by
  unfold submit
  rw [hv]
  simp only [if_pos hs, if_neg (not_or.mpr ⟨hsrc, htgt⟩),
    if_neg (not_or.mpr ⟨hns, not_or.mpr ⟨hnt, hne⟩⟩)]
  rw [show buildEdgeKey (jsNorm source) (jsNorm target) = submittedKey source target from rfl]
  rw [hdup]
  simp only [if_true]

theorem edgeWeight_upsertList (es : List EdgeRow) (sc ca cb k : String) :
    (match findEdge (upsertEdge es sc ca cb k).2 sc k with
      | some e => e.weight
      | none => 0) =
    (match findEdge es sc k with
      | some e => e.weight
      | none => 0) + 1 := by
  unfold upsertEdge
  cases hf : findEdge es sc k with
  | some e =>
      simp only
      unfold findEdge at hf ⊢
      rw [List.find?_map]
      have hpres : ((fun e : EdgeRow => e.session_code == sc && e.edge_key == k) ∘
          (fun r : EdgeRow =>
            if r.session_code == sc && r.edge_key == k then { r with weight := r.weight + 1 }
            else r)) = (fun e : EdgeRow => e.session_code == sc && e.edge_key == k) := by
        funext r
        by_cases hr : (r.session_code == sc && r.edge_key == k) = true
        · simp [Function.comp, hr]
        · simp [Function.comp, hr]
      rw [hpres, hf]
      have he := List.find?_some hf
      simp only [Bool.and_eq_true, beq_iff_eq] at he
      simp [he.1, he.2]
  | none =>
      simp only
      unfold findEdge at hf ⊢
      rw [List.find?_append, hf]
      simp

/-- `edgeWeight` after an upsert on `(sc, k)` is the old weight plus one. -/
theorem edgeWeight_upsert (db : DB) (sid sc source target : String) :
    edgeWeight (recordedDB db sid sc source target) sc (submittedKey source target) =
      edgeWeight db sc (submittedKey source target) + 1 := by
  unfold edgeWeight recordedDB
  simp only
  exact edgeWeight_upsertList db.edges sc (jsNorm source) (jsNorm target)
    (submittedKey source target)

theorem hasSessionEdge_recordedDB (db : DB) (sid sc source target sid' sc' k' : String) :
    hasSessionEdge (recordedDB db sid sc source target) sid' sc' k' =
      (hasSessionEdge db sid' sc' k' ||
        (sid == sid' && sc == sc' && submittedKey source target == k')) := by
  unfold hasSessionEdge recordedDB
  simp [List.any_append]

/-!  ### C2: idempotence per session  -/

/-- C2: a first submit of a fresh valid pair is recorded (`ok`); repeating it
with the same session and scope answers `duplicate`, carries the current
snapshot, leaves the database unchanged, and the weight has increased exactly
once over the two calls. -/
theorem submit_idempotent (db : DB) (sid codeRaw source target sc : String)
    (hv : validateSessionCode codeRaw = some sc) (hs : sc ∈ db.sessions)
    (hsrc : source ≠ ("")) (htgt : target ≠ (""))
    (hns : jsNorm source ≠ ("")) (hnt : jsNorm target ≠ (""))
    (hne : jsNorm source ≠ jsNorm target)
    (hfresh : hasSessionEdge db sid sc (submittedKey source target) = false) :
    (∃ e, (submit db sid codeRaw source target).1 =
        .ok e (getGraph (submit db sid codeRaw source target).2 sc)) ∧
    submit (submit db sid codeRaw source target).2 sid codeRaw source target =
      (.duplicate (getGraph (submit db sid codeRaw source target).2 sc),
        (submit db sid codeRaw source target).2) ∧
    edgeWeight (submit db sid codeRaw source target).2 sc (submittedKey source target) =
      edgeWeight db sc (submittedKey source target) + 1 := by
  have h1 := submit_recorded db sid codeRaw source target sc hv hs hsrc htgt hns hnt hne hfresh
  rw [h1]
  have hsess : (recordedDB db sid sc source target).sessions = db.sessions := rfl
  refine ⟨⟨_, rfl⟩, ?_, edgeWeight_upsert db sid sc source target⟩
  apply submit_duplicate _ _ _ _ _ sc hv (by rw [hsess]; exact hs) hsrc htgt hns hnt hne
  rw [hasSessionEdge_recordedDB]
  simp

/-- Witness for C2 on an initially empty scope. -/
theorem submit_idempotent_witness :
    (validateSessionCode ("demo") = some ("demo") ∧ ("demo") ∈ (DB.mk [("demo")] [] []).sessions ∧
      ("Trust") ≠ ("") ∧ ("Cooperation") ≠ ("") ∧ jsNorm ("Trust") ≠ ("") ∧
      jsNorm ("Cooperation") ≠ ("") ∧ jsNorm ("Trust") ≠ jsNorm ("Cooperation") ∧
      hasSessionEdge (DB.mk [("demo")] [] []) ("s1") ("demo")
        (submittedKey ("Trust") ("Cooperation")) = false) ∧
    ((∃ e, (submit (DB.mk [("demo")] [] []) ("s1") ("demo") ("Trust") ("Cooperation")).1 =
        .ok e (getGraph (submit (DB.mk [("demo")] [] []) ("s1") ("demo") ("Trust") ("Cooperation")).2 ("demo"))) ∧
      submit (submit (DB.mk [("demo")] [] []) ("s1") ("demo") ("Trust") ("Cooperation")).2
          ("s1") ("demo") ("Trust") ("Cooperation") =
        (.duplicate (getGraph (submit (DB.mk [("demo")] [] []) ("s1") ("demo") ("Trust") ("Cooperation")).2 ("demo")),
          (submit (DB.mk [("demo")] [] []) ("s1") ("demo") ("Trust") ("Cooperation")).2) ∧
      edgeWeight (submit (DB.mk [("demo")] [] []) ("s1") ("demo") ("Trust") ("Cooperation")).2
          ("demo") (submittedKey ("Trust") ("Cooperation")) =
        edgeWeight (DB.mk [("demo")] [] []) ("demo") (submittedKey ("Trust") ("Cooperation")) + 1) :=
  ⟨⟨by decide, by decide, by decide, by decide, by decide, by decide, by decide, by decide⟩,
    submit_idempotent (DB.mk [("demo")] [] []) ("s1") ("demo") ("Trust") ("Cooperation") ("demo")
      (by decide) (by decide) (by decide) (by decide) (by decide) (by decide) (by decide) (by decide)⟩

/-!  ### C1: the weight counts distinct recording sessions  -/

/-- One submit per session instance, in sequence, all for the same scope and
concept pair; returns the outcomes and the final database. -/
def submitSeq (db : DB) (sids : List String) (codeRaw source target : String) :
    List Outcome × DB :=
  match sids with
  | [] => ([], db)
  | s :: rest =>
      let r := submit db s codeRaw source target
      let rec' := submitSeq r.2 rest codeRaw source target
      (r.1 :: rec'.1, rec'.2)

theorem submitSeq_all_recorded (sids : List String) :
    ∀ (db : DB) (codeRaw source target sc : String),
    validateSessionCode codeRaw = some sc → sc ∈ db.sessions →
    source ≠ ("") → target ≠ ("") →
    jsNorm source ≠ ("") → jsNorm target ≠ ("") → jsNorm source ≠ jsNorm target →
    sids.Nodup →
    (∀ s ∈ sids, hasSessionEdge db s sc (submittedKey source target) = false) →
    (∀ o ∈ (submitSeq db sids codeRaw source target).1, ∃ e g, o = .ok e g) ∧
    (submitSeq db sids codeRaw source target).2.sessions = db.sessions ∧
    edgeWeight (submitSeq db sids codeRaw source target).2 sc (submittedKey source target) =
      edgeWeight db sc (submittedKey source target) + sids.length := by
  induction sids with
  | nil =>
    intro db codeRaw source target sc _ _ _ _ _ _ _ _ _
    exact ⟨by intro o ho; simp [submitSeq] at ho, rfl, by simp [submitSeq]⟩
  | cons s rest ih =>
    intro db codeRaw source target sc hv hs hsrc htgt hns hnt hne hnodup hfresh
    have hrec := submit_recorded db s codeRaw source target sc hv hs hsrc htgt hns hnt hne
      (hfresh s (List.mem_cons_self s rest))
    have hnodup' := List.nodup_cons.mp hnodup
    have hfresh' : ∀ s' ∈ rest,
        hasSessionEdge (recordedDB db s sc source target) s' sc
          (submittedKey source target) = false := by
      intro s' hs'
      rw [hasSessionEdge_recordedDB, hfresh s' (List.mem_cons_of_mem s hs')]
      have hss : (s == s') = false := by
        simp only [beq_eq_false_iff_ne, ne_eq]
        intro hcontra; subst hcontra; exact hnodup'.1 hs'
      simp [hss]
    have hih := ih (recordedDB db s sc source target) codeRaw source target sc hv hs hsrc
      htgt hns hnt hne hnodup'.2 hfresh'
    simp only [submitSeq, hrec]
    refine ⟨?_, hih.2.1, ?_⟩
    · intro o ho
      rcases List.mem_cons.mp ho with rfl | ho
      · exact ⟨_, _, rfl⟩
      · exact hih.1 o ho
    · rw [hih.2.2, edgeWeight_upsert]
      simp [List.length_cons]
      omega

/-- C1: if `N` distinct session instances, none of which has recorded this
edge key before, each submit the same valid pair into a scope whose edge row
is initially absent, then every call is recorded and the stored weight ends
at exactly `N`. -/
theorem submit_weight_equals_sessions (db : DB) (sids : List String)
    (codeRaw source target sc : String)
    (hv : validateSessionCode codeRaw = some sc) (hs : sc ∈ db.sessions)
    (hsrc : source ≠ ("")) (htgt : target ≠ (""))
    (hns : jsNorm source ≠ ("")) (hnt : jsNorm target ≠ (""))
    (hne : jsNorm source ≠ jsNorm target)
    (hnodup : sids.Nodup)
    (hfresh : ∀ s ∈ sids, hasSessionEdge db s sc (submittedKey source target) = false)
    (habsent : findEdge db.edges sc (submittedKey source target) = none) :
    (∀ o ∈ (submitSeq db sids codeRaw source target).1, ∃ e g, o = .ok e g) ∧
    edgeWeight (submitSeq db sids codeRaw source target).2 sc (submittedKey source target) =
      sids.length := by
  have h := submitSeq_all_recorded sids db codeRaw source target sc hv hs hsrc htgt hns hnt
    hne hnodup hfresh
  have h0 : edgeWeight db sc (submittedKey source target) = 0 := by
    unfold edgeWeight; rw [habsent]
  refine ⟨h.1, ?_⟩
  rw [h.2.2, h0, Nat.zero_add]

/-- Witness for C1 with two distinct sessions in an initially empty scope. -/
theorem submit_weight_equals_sessions_witness :
    (validateSessionCode ("demo") = some ("demo") ∧
      ("demo") ∈ (DB.mk [("demo")] [] []).sessions ∧
      ("Trust") ≠ ("") ∧ ("Cooperation") ≠ ("") ∧
      jsNorm ("Trust") ≠ ("") ∧ jsNorm ("Cooperation") ≠ ("") ∧
      jsNorm ("Trust") ≠ jsNorm ("Cooperation") ∧
      ([("s1"), ("s2")] : List String).Nodup ∧
      (∀ s ∈ [("s1"), ("s2")], hasSessionEdge (DB.mk [("demo")] [] []) s ("demo")
        (submittedKey ("Trust") ("Cooperation")) = false) ∧
      findEdge (DB.mk [("demo")] [] []).edges ("demo")
        (submittedKey ("Trust") ("Cooperation")) = none) ∧
    ((∀ o ∈ (submitSeq (DB.mk [("demo")] [] []) [("s1"), ("s2")] ("demo") ("Trust")
        ("Cooperation")).1, ∃ e g, o = .ok e g) ∧
      edgeWeight (submitSeq (DB.mk [("demo")] [] []) [("s1"), ("s2")] ("demo") ("Trust")
          ("Cooperation")).2 ("demo") (submittedKey ("Trust") ("Cooperation")) =
        ([("s1"), ("s2")] : List String).length) :=
  ⟨⟨by decide, by decide, by decide, by decide, by decide, by decide, by decide, by decide,
      by decide, by decide⟩,
    submit_weight_equals_sessions (DB.mk [("demo")] [] []) [("s1"), ("s2")] ("demo")
      ("Trust") ("Cooperation") ("demo") (by decide) (by decide) (by decide) (by decide)
      (by decide) (by decide) (by decide) (by decide) (by decide) (by decide)⟩

/-!  ### C7: the recorded path is not atomic  -/

/-- The submit handler with an explicit storage-failure oracle for the
`upsertEdge` statement.  `better-sqlite3` runs each prepared statement in its
own autocommit transaction and the handler wraps the two mutating statements
in no transaction, so when `upsertEdge.run` throws, the `recordSessionEdge`
insert that already executed stays committed and the exception propagates to
the caller; `Except.error` carries the database state at the moment of the
throw. -/
def submitFallible (db : DB) (sessionId codeRaw source target : String)
    (upsertFails : Bool) : Except DB (Outcome × DB) :=
  match validateSessionCode codeRaw with
  | none => .ok (.error ("Invalid session code."), db)
  | some sessionCode =>
    if sessionCode ∈ db.sessions then
      if source = ("") ∨ target = ("") then
        .ok (.error ("Both source and target concepts are required."), db)
      else
        let normalizedSource := jsNorm source
        let normalizedTarget := jsNorm target
        if normalizedSource = ("") ∨ normalizedTarget = ("") ∨
            normalizedSource = normalizedTarget then
          .ok (.error ("Concepts must be non-empty and distinct."), db)
        else
          let edgeKey := buildEdgeKey normalizedSource normalizedTarget
          if hasSessionEdge db sessionId sessionCode edgeKey then
            .ok (.duplicate (getGraph db sessionCode), db)
          else
            let db1 : DB :=
              { db with session_edges :=
                  db.session_edges ++ [⟨sessionId, sessionCode, edgeKey⟩] }
            if upsertFails then
              .error db1
            else
              let up := upsertEdge db1.edges sessionCode normalizedSource normalizedTarget edgeKey
              let db2 : DB := { db1 with edges := up.2 }
              .ok (.ok up.1 (getGraph db2 sessionCode), db2)
    else
      .ok (.error ("Session not found."), db)

/-- C7 fails on the code: when the upsert statement fails after the
submission record was inserted, the state is not rolled back — the record
persists with no weight increment, and a retry by the same session is then
answered `duplicate` while the weight stays 0. -/
theorem submit_partial_failure_not_atomic :
    submitFallible (DB.mk [("demo")] [] []) ("s1") ("demo") ("pain") ("distrust") true =
      .error (DB.mk [("demo")] []
        [SessionEdgeRow.mk ("s1") ("demo") (submittedKey ("pain") ("distrust"))]) ∧
    hasSessionEdge (DB.mk [("demo")] []
        [SessionEdgeRow.mk ("s1") ("demo") (submittedKey ("pain") ("distrust"))])
      ("s1") ("demo") (submittedKey ("pain") ("distrust")) = true ∧
    edgeWeight (DB.mk [("demo")] []
        [SessionEdgeRow.mk ("s1") ("demo") (submittedKey ("pain") ("distrust"))])
      ("demo") (submittedKey ("pain") ("distrust")) = 0 ∧
    (submit (DB.mk [("demo")] []
        [SessionEdgeRow.mk ("s1") ("demo") (submittedKey ("pain") ("distrust"))])
      ("s1") ("demo") ("pain") ("distrust")).2 =
      DB.mk [("demo")] []
        [SessionEdgeRow.mk ("s1") ("demo") (submittedKey ("pain") ("distrust"))] := by
  refine ⟨rfl, by decide, by decide, by decide⟩

/-!  ### C10: snapshot edge order and node order  -/

theorem jsLt_trans : ∀ x y z : List Char,
    jsLt x y = true → jsLt y z = true → jsLt x z = true := by
  intro x
  induction x with
  | nil =>
    intro y z h1 h2
    cases y with
    | nil => simp [jsLt] at h1
    | cons b bs =>
      cases z with
      | nil => simp [jsLt] at h2
      | cons c cs => simp [jsLt]
  | cons a as ih =>
    intro y z h1 h2
    cases y with
    | nil => simp [jsLt] at h1
    | cons b bs =>
      cases z with
      | nil => simp [jsLt] at h2
      | cons c cs =>
        simp only [jsLt] at h1 h2 ⊢
        rcases lt_trichotomy a b with hab | hab | hab
        · rcases lt_trichotomy b c with hbc | hbc | hbc
          · rw [if_pos (lt_trans hab hbc)]
          · subst hbc; rw [if_pos hab]
          · rw [if_neg (asymm hbc), if_pos hbc] at h2; simp at h2
        · subst hab
          rw [if_neg (lt_irrefl a), if_neg (lt_irrefl a)] at h1
          rcases lt_trichotomy a c with hac | hac | hac
          · rw [if_pos hac]
          · subst hac
            rw [if_neg (lt_irrefl a), if_neg (lt_irrefl a)] at h2 ⊢
            exact ih bs cs h1 h2
          · rw [if_neg (asymm hac), if_pos hac] at h2; simp at h2
        · rw [if_neg (asymm hab), if_pos hab] at h1; simp at h1

/-- `x ≤ z` is transitive for the JS string order (stated on the `false`
side of `jsLt`). -/
theorem jsLt_le_trans (x y z : List Char)
    (h1 : jsLt y x = false) (h2 : jsLt z y = false) : jsLt z x = false := by
  cases hza : jsLt z x with
  | false => rfl
  | true =>
    cases hzy : jsLt y z with
    | true =>
      have := jsLt_trans y z x hzy hza
      rw [this] at h1; cases h1
    | false =>
      have heq : y = z := jsLt_conn y z hzy h2
      subst heq
      rw [hza] at h1; cases h1

theorem edgeRowLe_trans (a b c : EdgeRow) (h1 : edgeRowLe a b = true)
    (h2 : edgeRowLe b c = true) : edgeRowLe a c = true := by
  unfold edgeRowLe at h1 h2 ⊢
  simp only [Bool.or_eq_true, decide_eq_true_eq, Bool.and_eq_true, beq_iff_eq,
    Bool.not_eq_true'] at h1 h2 ⊢
  rcases h1 with h1 | ⟨h1w, h1s⟩
  · rcases h2 with h2 | ⟨h2w, h2s⟩
    · exact Or.inl (lt_trans h2 h1)
    · exact Or.inl (h2w ▸ h1)
  · rcases h2 with h2 | ⟨h2w, h2s⟩
    · exact Or.inl (h1w ▸ h2)
    · exact Or.inr ⟨h1w.trans h2w, jsLt_le_trans _ _ _ h1s h2s⟩

theorem edgeRowLe_total (a b : EdgeRow) :
    edgeRowLe a b = true ∨ edgeRowLe b a = true := by
  unfold edgeRowLe
  simp only [Bool.or_eq_true, decide_eq_true_eq, Bool.and_eq_true, beq_iff_eq,
    Bool.not_eq_true']
  rcases lt_trichotomy a.weight b.weight with hw | hw | hw
  · exact Or.inr (Or.inl hw)
  · cases hs : jsStrLt b.concept_a a.concept_a with
    | false => exact Or.inl (Or.inr ⟨hw, rfl⟩)
    | true =>
      refine Or.inr (Or.inr ⟨hw.symm, ?_⟩)
      exact jsLt_asymm _ _ hs
  · exact Or.inl (Or.inl hw)

/-- The deterministic edge order claimed for snapshots: weight strictly
descending, ties broken by the stored first concept ascending under the JS
string order. -/
def edgeOrder (a b : EdgeRow) : Prop :=
  b.weight < a.weight ∨
    (a.weight = b.weight ∧ jsStrLt b.concept_a a.concept_a = false)

/-- First-appearance order of the endpoints along a snapshot's edge list. -/
def firstOccIds (edges : List GEdge) : List String :=
  edges.foldl (fun acc e =>
    let acc1 := if e.src ∈ acc then acc else acc ++ [e.src]
    if e.dst ∈ acc1 then acc1 else acc1 ++ [e.dst]) []

theorem mget_map_pair (f : String → β) :
    ∀ (l : List String) (a : String),
    mget (l.map (fun s => (s, f s))) a = if a ∈ l then some (f a) else none := by
  intro l
  induction l with
  | nil => intro a; simp [mget]
  | cons x xs ih =>
    intro a
    simp only [List.map_cons, mget]
    by_cases hx : x = a
    · subst hx; simp
    · rw [if_neg hx, ih a]
      by_cases ha : a ∈ xs
      · rw [if_pos ha, if_pos (List.mem_cons_of_mem x ha)]
      · rw [if_neg ha, if_neg]
        intro hmem
        rcases List.mem_cons.mp hmem with rfl | hmem
        · exact hx rfl
        · exact ha hmem

theorem mset_absent_append [DecidableEq α] (m : List (α × β)) (k : α) (v : β)
    (h : mget m k = none) : mset m k v = m ++ [(k, v)] := by
  induction m with
  | nil => simp [mset]
  | cons p r ih =>
    obtain ⟨k₀, v₀⟩ := p
    simp only [mget] at h
    by_cases h0 : k₀ = k
    · rw [if_pos h0] at h; cases h
    · rw [if_neg h0] at h
      simp only [mset, if_neg h0, List.cons_append, ih h]

/-- The node-map fold of `getGraph` refines the plain first-appearance fold. -/
theorem nodesMap_fold_eq : ∀ (rows : List EdgeRow) (acc : List String),
    rows.foldl (fun nm r =>
      let a := jsTrim r.concept_a
      let b := jsTrim r.concept_b
      let nm1 := if (mget nm a).isSome then nm else mset nm a (GNode.mk a a)
      if (mget nm1 b).isSome then nm1 else mset nm1 b (GNode.mk b b))
      (acc.map (fun s => (s, GNode.mk s s))) =
    (rows.foldl (fun acc r =>
      let a := jsTrim r.concept_a
      let b := jsTrim r.concept_b
      let acc1 := if a ∈ acc then acc else acc ++ [a]
      if b ∈ acc1 then acc1 else acc1 ++ [b]) acc).map (fun s => (s, GNode.mk s s)) := by
  intro rows
  induction rows with
  | nil => intro acc; rfl
  | cons r rest ih =>
    intro acc
    simp only [List.foldl_cons]
    have hstep : ∀ (acc' : List String) (c : String),
        (if (mget (acc'.map (fun s => (s, GNode.mk s s))) c).isSome then
          acc'.map (fun s => (s, GNode.mk s s))
        else mset (acc'.map (fun s => (s, GNode.mk s s))) c (GNode.mk c c)) =
        (if c ∈ acc' then acc' else acc' ++ [c]).map (fun s => (s, GNode.mk s s)) := by
      intro acc' c
      rw [mget_map_pair]
      by_cases hc : c ∈ acc'
      · rw [if_pos hc, if_pos hc]
        simp
      · rw [if_neg hc, if_neg hc]
        simp only [Option.isSome_none, Bool.false_eq_true, if_false]
        rw [mset_absent_append _ _ _ (by rw [mget_map_pair, if_neg hc])]
        simp
    rw [hstep acc (jsTrim r.concept_a), hstep _ (jsTrim r.concept_b)]
    exact ih _

/-- C10: `getGraph` is deterministic — its edge list is ordered by weight
descending with ties broken by the stored first concept ascending, its edges
are exactly the scope's sorted rows with trimmed endpoints, and its node list
is the endpoints in first-appearance order along that edge order. -/
theorem getGraph_deterministic (db : DB) (sc : String) :
    List.Pairwise edgeOrder (listEdgesFor db sc) ∧
    (getGraph db sc).edges = (listEdgesFor db sc).map
      (fun r => GEdge.mk (jsTrim r.concept_a) (jsTrim r.concept_b) r.weight) ∧
    (getGraph db sc).nodes =
      (firstOccIds (getGraph db sc).edges).map (fun s => GNode.mk s s) := by
  refine ⟨?_, rfl, ?_⟩
  · have hs := sortByLe_sorted edgeRowLe edgeRowLe_trans edgeRowLe_total
      (db.edges.filter (fun e => e.session_code == sc))
    refine (List.Pairwise.imp ?_ hs)
    intro a b hab
    unfold edgeRowLe at hab
    simp only [Bool.or_eq_true, decide_eq_true_eq, Bool.and_eq_true, beq_iff_eq,
      Bool.not_eq_true'] at hab
    exact hab
  · show (getGraph db sc).nodes =
      (firstOccIds ((listEdgesFor db sc).map
        (fun r => GEdge.mk (jsTrim r.concept_a) (jsTrim r.concept_b) r.weight))).map
        (fun s => GNode.mk s s)
    unfold getGraph firstOccIds
    simp only [List.foldl_map]
    have h := nodesMap_fold_eq (listEdgesFor db sc) []
    simp only [List.map_nil] at h
    rw [h, List.map_map]
    rfl

/-!  ### Client analytics: `buildMetrics` of `src/public/app.js`  -/

def adjGet (adj : List (String × List String)) (k : String) : List String :=
  (mget adj k).getD []

/-- The body of the edge loop of `buildMetrics`: ensure both endpoints are
keyed, bump both degrees, and add each endpoint to the other's adjacency
set. -/
def metricsStep (dm : List (String × Nat) × List (String × List String)) (e : GEdge) :
    List (String × Nat) × List (String × List String) :=
  let d1 := if (mget dm.1 e.src).isSome then dm.1 else mset dm.1 e.src 0
  let d2 := if (mget d1 e.dst).isSome then d1 else mset d1 e.dst 0
  let d3 := mset d2 e.src ((mget d2 e.src).getD 0 + 1)
  let d4 := mset d3 e.dst ((mget d3 e.dst).getD 0 + 1)
  let a1 := if (mget dm.2 e.src).isSome then dm.2 else mset dm.2 e.src []
  let a2 := if (mget a1 e.dst).isSome then a1 else mset a1 e.dst []
  let a3 := mset a2 e.src (sadd (adjGet a2 e.src) e.dst)
  let a4 := mset a3 e.dst (sadd (adjGet a3 e.dst) e.src)
  (d4, a4)

/-- The node loop of `buildMetrics`: every snapshot node starts with degree 0
and an empty adjacency set. -/
def initMetrics (nodes : List GNode) :
    List (String × Nat) × List (String × List String) :=
  nodes.foldl (fun dm node => (mset dm.1 node.id 0, mset dm.2 node.id [])) ([], [])

/-- The hub fold of `buildMetrics`, starting from `hubDegree = -1` and
keeping the first strictly larger degree. -/
def pickFrom (acc : Option String × Int) (l : List (String × Nat)) : Option String × Int :=
  l.foldl (fun acc kv => if (kv.2 : Int) > acc.2 then (some kv.1, (kv.2 : Int)) else acc) acc

def pickHub (degrees : List (String × Nat)) : Option String :=
  (pickFrom (none, -1) degrees).1

/-- One pass of the BFS inner loop (`neighbours.forEach`): unvisited
neighbours get distance `d + 1` and are pushed on the queue. -/
def expand (d : Nat) : List (String × Nat) → List String → List String →
    List (String × Nat) × List String
  | dists, queue, [] => (dists, queue)
  | dists, queue, n :: ns =>
    if (mget dists n).isSome then expand d dists queue ns
    else expand d (mset dists n (d + 1)) (queue ++ [n]) ns

/-- The BFS `while (queue.length)` loop.  The `fuel` argument makes the
recursion structural; `bfsFrom` supplies fuel that provably dominates the
loop's variant, so the `fuel = 0` branch is never taken. -/
def bfsLoop (adj : List (String × List String)) :
    Nat → List (String × Nat) → List String → List (String × Nat)
  | 0, dists, _ => dists
  | _ + 1, dists, [] => dists
  | fuel + 1, dists, current :: rest =>
    let d := (mget dists current).getD 0
    let p := expand d dists rest (adjGet adj current)
    bfsLoop adj fuel p.1 p.2

/-- All strings occurring in adjacency sets; every node the BFS can enqueue is
in this list. -/
def univOf (adj : List (String × List String)) : List String :=
  (adj.map Prod.snd).flatten

/-- The loop variant: unvisited universe nodes count double, plus the queue
length. -/
def bfsMeasure (univ : List String) (dists : List (String × Nat))
    (queue : List String) : Nat :=
  2 * (univ.filter (fun n => (mget dists n).isNone)).length + queue.length

def bfsFrom (adj : List (String × List String)) (hub : String) : List (String × Nat) :=
  bfsLoop adj (2 * (univOf adj).length + 2) [(hub, 0)] [hub]

/-- The analytics record `{ degrees, adjacency, hubId, distances }`. -/
structure Metrics where
  degrees : List (String × Nat)
  adjacency : List (String × List String)
  hubId : Option String
  distances : List (String × Nat)

/-- The degrees/adjacency pair after both loops of `buildMetrics`. -/
def metricsPair (g : Graph) : List (String × Nat) × List (String × List String) :=
  g.edges.foldl metricsStep (initMetrics g.nodes)

/-- `buildMetrics` of `src/public/app.js`. -/
def buildMetrics (g : Graph) : Metrics :=
  ⟨(metricsPair g).1, (metricsPair g).2, pickHub (metricsPair g).1,
    match pickHub (metricsPair g).1 with
    | none => []
    | some h => bfsFrom (metricsPair g).2 h⟩

/-!  ### C3: hub maximality and the tie-break  -/

theorem pickFrom_spec : ∀ (l : List (String × Nat)) (acc : Option String × Int),
    (pickFrom acc l = acc ∧ ∀ p ∈ l, (p.2 : Int) ≤ acc.2) ∨
    (∃ (h : String) (dh : Nat) (l₁ l₂ : List (String × Nat)),
      l = l₁ ++ (h, dh) :: l₂ ∧ pickFrom acc l = (some h, (dh : Int)) ∧
      acc.2 < (dh : Int) ∧ (∀ p ∈ l₁, (p.2 : Int) < (dh : Int)) ∧
      (∀ p ∈ l₂, (p.2 : Int) ≤ (dh : Int))) := by
  intro l
  induction l with
  | nil => intro acc; exact Or.inl ⟨rfl, by simp⟩
  | cons kv rest ih =>
    intro acc
    obtain ⟨k, v⟩ := kv
    by_cases hgt : ((v : Int) > acc.2)
    · have hred : pickFrom acc ((k, v) :: rest) = pickFrom (some k, (v : Int)) rest := by
        unfold pickFrom
        simp only [List.foldl_cons, if_pos hgt]
      rcases ih (some k, (v : Int)) with ⟨heq, hall⟩ | ⟨h, dh, l₁, l₂, hsplit, heq, hlt, hl₁, hl₂⟩
      · refine Or.inr ⟨k, v, [], rest, by simp, ?_, hgt, by simp, ?_⟩
        · rw [hred, heq]
        · intro p hp; exact hall p hp
      · refine Or.inr ⟨h, dh, (k, v) :: l₁, l₂, by rw [hsplit, List.cons_append], ?_, ?_, ?_, hl₂⟩
        · rw [hred, heq]
        · exact lt_trans hgt hlt
        · intro p hp
          rcases List.mem_cons.mp hp with rfl | hp
          · exact hlt
          · exact hl₁ p hp
    · have hred : pickFrom acc ((k, v) :: rest) = pickFrom acc rest := by
        unfold pickFrom
        simp only [List.foldl_cons, if_neg hgt]
      rcases ih acc with ⟨heq, hall⟩ | ⟨h, dh, l₁, l₂, hsplit, heq, hlt, hl₁, hl₂⟩
      · refine Or.inl ⟨by rw [hred, heq], ?_⟩
        intro p hp
        rcases List.mem_cons.mp hp with rfl | hp
        · exact not_lt.mp hgt
        · exact hall p hp
      · refine Or.inr ⟨h, dh, (k, v) :: l₁, l₂, by rw [hsplit, List.cons_append],
          by rw [hred, heq], hlt, ?_, hl₂⟩
        intro p hp
        rcases List.mem_cons.mp hp with rfl | hp
        · exact lt_of_le_of_lt (not_lt.mp hgt) hlt
        · exact hl₁ p hp

theorem mset_length_le [DecidableEq α] (m : List (α × β)) (k : α) (v : β) :
    m.length ≤ (mset m k v).length := by
  induction m with
  | nil => simp [mset]
  | cons p r ih =>
    obtain ⟨k₀, v₀⟩ := p
    by_cases h0 : k₀ = k
    · simp [mset, if_pos h0]
    · simp only [mset, if_neg h0, List.length_cons]
      omega

theorem metricsStep_deg_length (dm : List (String × Nat) × List (String × List String))
    (e : GEdge) : dm.1.length ≤ (metricsStep dm e).1.length := by
  have step_if : ∀ (m : List (String × Nat)) (k : String),
      m.length ≤ (if (mget m k).isSome then m else mset m k 0).length := by
    intro m k
    split
    · exact le_refl _
    · exact mset_length_le m k 0
  simp only [metricsStep]
  exact le_trans (step_if dm.1 e.src)
    (le_trans (step_if _ e.dst) (le_trans (mset_length_le _ _ _) (mset_length_le _ _ _)))

theorem degrees_length_pos (g : Graph) (hne : g.nodes ≠ []) :
    1 ≤ (buildMetrics g).degrees.length := by
  have hfold : ∀ (es : List GEdge) (dm : List (String × Nat) × List (String × List String)),
      dm.1.length ≤ (es.foldl metricsStep dm).1.length := by
    intro es
    induction es with
    | nil => intro dm; exact le_refl _
    | cons e rest ih =>
      intro dm
      simp only [List.foldl_cons]
      exact le_trans (metricsStep_deg_length dm e) (ih (metricsStep dm e))
  have hinit : ∀ (ns : List GNode) (dm : List (String × Nat) × List (String × List String)),
      dm.1.length ≤
        (ns.foldl (fun dm node => (mset dm.1 node.id 0, mset dm.2 node.id [])) dm).1.length := by
    intro ns
    induction ns with
    | nil => intro dm; exact le_refl _
    | cons n rest ih =>
      intro dm
      simp only [List.foldl_cons]
      exact le_trans (mset_length_le dm.1 n.id 0) (ih (mset dm.1 n.id 0, mset dm.2 n.id []))
  show 1 ≤ (g.edges.foldl metricsStep (initMetrics g.nodes)).1.length
  refine le_trans ?_ (hfold g.edges (initMetrics g.nodes))
  unfold initMetrics
  cases hg : g.nodes with
  | nil => exact absurd hg hne
  | cons n rest =>
    simp only [List.foldl_cons]
    refine le_trans ?_ (hinit rest _)
    simp [mset]

/-- C3 (amended): the hub of a non-empty snapshot carries a degree at least
as large as every entry of the degrees map, and among entries tied at that
degree it is the one appearing first in the map's insertion order. -/
theorem hub_first_max (g : Graph) (hne : g.nodes ≠ []) :
    ∃ hb dh l₁ l₂, (buildMetrics g).hubId = some hb ∧
      (buildMetrics g).degrees = l₁ ++ (hb, dh) :: l₂ ∧
      (∀ p ∈ l₁, p.2 < dh) ∧
      (∀ p ∈ (buildMetrics g).degrees, p.2 ≤ dh) := by
  have hlen := degrees_length_pos g hne
  rcases pickFrom_spec (buildMetrics g).degrees (none, -1) with ⟨_, hall⟩ |
    ⟨h, dh, l₁, l₂, hsplit, heq, _, hl₁, hl₂⟩
  · exfalso
    cases hd : (buildMetrics g).degrees with
    | nil => rw [hd] at hlen; simp at hlen
    | cons p rest =>
      have := hall p (by rw [hd]; exact List.mem_cons_self p rest)
      simp only at this
      omega
  · refine ⟨h, dh, l₁, l₂, ?_, hsplit, ?_, ?_⟩
    · have : (buildMetrics g).hubId = pickHub (buildMetrics g).degrees := rfl
      rw [this]
      unfold pickHub
      rw [heq]
    · intro p hp
      have := hl₁ p hp
      exact_mod_cast this
    · intro p hp
      rw [hsplit] at hp
      rcases List.mem_append.mp hp with hp | hp
      · exact le_of_lt (by exact_mod_cast hl₁ p hp)
      · rcases List.mem_cons.mp hp with rfl | hp
        · exact le_refl _
        · exact_mod_cast hl₂ p hp

/-- A snapshot with two degree-0 nodes listed as `b` then `a`. -/
def tieGraph : Graph := ⟨[⟨("b"), ("b")⟩, ⟨("a"), ("a")⟩], []⟩

/-- C3 fails as stated on the code: on `tieGraph` the nodes `a` and `b` are
tied (both degree 0) and `a` sorts first lexicographically, but the hub
chosen is `b` (the first map entry), not the lexicographically smallest. -/
theorem hub_tie_not_lexicographic :
    (buildMetrics tieGraph).hubId = some ("b") ∧
    mget (buildMetrics tieGraph).degrees ("a") = mget (buildMetrics tieGraph).degrees ("b") ∧
    GNode.mk ("a") ("a") ∈ tieGraph.nodes ∧
    jsStrLt ("a") ("b") = true := by decide

/-- Witness for the amended C3 at a concrete non-empty snapshot. -/
theorem hub_first_max_witness :
    tieGraph.nodes ≠ [] ∧
    (∃ hb dh l₁ l₂, (buildMetrics tieGraph).hubId = some hb ∧
      (buildMetrics tieGraph).degrees = l₁ ++ (hb, dh) :: l₂ ∧
      (∀ p ∈ l₁, p.2 < dh) ∧
      (∀ p ∈ (buildMetrics tieGraph).degrees, p.2 ≤ dh)) :=
  ⟨by decide, hub_first_max tieGraph (by decide)⟩

/-!  ### BFS correctness (C4)  -/

/-- Walks of a given length from a fixed start along a relation `R`. -/
inductive WalkR (R : String → String → Prop) (x : String) : String → Nat → Prop
  | refl : WalkR R x x 0
  | step {y z : String} {n : Nat} : WalkR R x y n → R y z → WalkR R x z (n + 1)

/-- The undirected adjacency relation of a snapshot, straight from its edge
list. -/
def Adjacent (g : Graph) (x y : String) : Prop :=
  ∃ e ∈ g.edges, (e.src = x ∧ e.dst = y) ∨ (e.src = y ∧ e.dst = x)

/-- The neighbour relation the BFS actually walks: membership in the
adjacency map. -/
def nbr (adj : List (String × List String)) (x y : String) : Prop :=
  y ∈ adjGet adj x

theorem WalkR_congr {R S : String → String → Prop}
    (hRS : ∀ a b, R a b ↔ S a b) {x y : String} {n : Nat}
    (hw : WalkR R x y n) : WalkR S x y n := by
  induction hw with
  | refl => exact WalkR.refl
  | step _ hr ih => exact WalkR.step ih ((hRS _ _).mp hr)

theorem mget_eq_none [DecidableEq α] (m : List (α × β)) (k : α) :
    mget m k = none ↔ k ∉ m.map Prod.fst := by
  induction m with
  | nil => simp [mget]
  | cons p r ih =>
    obtain ⟨k₀, v₀⟩ := p
    simp only [mget, List.map_cons, List.mem_cons]
    by_cases h0 : k₀ = k
    · subst h0; simp
    · rw [if_neg h0, ih]
      constructor
      · intro hn hmem
        rcases hmem with hmem | hmem
        · exact h0 hmem.symm
        · exact hn hmem
      · intro hn
        exact fun hmem => hn (Or.inr hmem)

theorem mget_some_mem [DecidableEq α] (m : List (α × β)) (k : α) (v : β)
    (h : mget m k = some v) : (k, v) ∈ m := by
  induction m with
  | nil => cases h
  | cons p r ih =>
    obtain ⟨k₀, v₀⟩ := p
    simp only [mget] at h
    by_cases h0 : k₀ = k
    · rw [if_pos h0] at h
      subst h0
      cases h
      exact List.mem_cons_self _ _
    · rw [if_neg h0] at h
      exact List.mem_cons_of_mem _ (ih h)

theorem mem_sadd [DecidableEq α] (s : List α) (x y : α) :
    y ∈ sadd s x ↔ y ∈ s ∨ y = x := by
  unfold sadd
  by_cases h : x ∈ s
  · rw [if_pos h]
    constructor
    · exact Or.inl
    · intro hy
      rcases hy with hy | rfl
      · exact hy
      · exact h
  · rw [if_neg h]
    simp

/-- The invariants the BFS loop maintains; at `queue = []` they determine the
distance map completely. -/
structure BfsInv (adj : List (String × List String)) (hub : String)
    (dists : List (String × Nat)) (queue : List String) : Prop where
  nodupKeys : (dists.map Prod.fst).Nodup
  nodupQ : queue.Nodup
  qKeyed : ∀ n ∈ queue, (mget dists n).isSome
  sound : ∀ n d, mget dists n = some d → WalkR (nbr adj) hub n d
  hub0 : mget dists hub = some 0
  zeroOnly : ∀ n, mget dists n = some 0 → n = hub
  processed : ∀ n dn, mget dists n = some dn → n ∉ queue →
    ∀ m ∈ adjGet adj n, ∃ dm, mget dists m = some dm ∧ dm ≤ dn + 1
  sortedQ : (queue.map (fun n => (mget dists n).getD 0)).Pairwise (· ≤ ·)
  widthQ : ∀ f, queue.head? = some f → ∀ n ∈ queue,
    (mget dists n).getD 0 ≤ (mget dists f).getD 0 + 1
  procLe : ∀ n dn, mget dists n = some dn → n ∉ queue →
    ∀ q ∈ queue, dn ≤ (mget dists q).getD 0
  keysSub : ∀ n, (mget dists n).isSome → n = hub ∨ n ∈ univOf adj
  valBound : ∀ n dn, mget dists n = some dn → dn < dists.length

/-- Entries present before an `expand` pass survive it unchanged. -/
theorem expand_preserve (d : Nat) : ∀ (ns : List String) (dists : List (String × Nat))
    (queue : List String) (x : String) (v : Nat), mget dists x = some v →
    mget (expand d dists queue ns).1 x = some v := by
  intro ns
  induction ns with
  | nil => intro dists queue x v hx; exact hx
  | cons n ns' ih =>
    intro dists queue x v hx
    simp only [expand]
    by_cases hn : (mget dists n).isSome
    · rw [if_pos hn]; exact ih dists queue x v hx
    · rw [if_neg hn]
      refine ih _ _ x v ?_
      rw [mget_mset_ne]
      · exact hx
      · intro hxn
        subst hxn
        rw [hx] at hn
        exact hn rfl

/-- Every entry after an `expand` pass is an old entry or a fresh neighbour at
distance `d + 1`. -/
theorem expand_new (d : Nat) : ∀ (ns : List String) (dists : List (String × Nat))
    (queue : List String) (x : String) (v : Nat),
    mget (expand d dists queue ns).1 x = some v →
    mget dists x = some v ∨ (v = d + 1 ∧ x ∈ ns ∧ mget dists x = none) := by
  intro ns
  induction ns with
  | nil => intro dists queue x v hx; exact Or.inl hx
  | cons n ns' ih =>
    intro dists queue x v hx
    simp only [expand] at hx
    by_cases hn : (mget dists n).isSome
    · rw [if_pos hn] at hx
      rcases ih dists queue x v hx with hold | ⟨rfl, hmem, hnone⟩
      · exact Or.inl hold
      · exact Or.inr ⟨rfl, List.mem_cons_of_mem n hmem, hnone⟩
    · rw [if_neg hn] at hx
      have hnone : mget dists n = none := by
        cases hg : mget dists n
        · rfl
        · rw [hg] at hn; exact absurd rfl hn
      rcases ih _ _ x v hx with hold | ⟨rfl, hmem, hnone'⟩
      · by_cases hxn : x = n
        · subst hxn
          rw [mget_mset_self] at hold
          cases hold
          exact Or.inr ⟨rfl, List.mem_cons_self _ _, hnone⟩
        · rw [mget_mset_ne _ _ _ _ hxn] at hold
          exact Or.inl hold
      · have hxn : x ≠ n := by
          intro hc; subst hc
          rw [mget_mset_self] at hnone'
          cases hnone'
        rw [mget_mset_ne _ _ _ _ hxn] at hnone'
        exact Or.inr ⟨rfl, List.mem_cons_of_mem n hmem, hnone'⟩

/-- After an `expand` pass every processed neighbour is keyed. -/
theorem expand_cover (d : Nat) : ∀ (ns : List String) (dists : List (String × Nat))
    (queue : List String) (x : String), x ∈ ns →
    (mget (expand d dists queue ns).1 x).isSome := by
  intro ns
  induction ns with
  | nil => intro dists queue x hx; cases hx
  | cons n ns' ih =>
    intro dists queue x hx
    simp only [expand]
    by_cases hn : (mget dists n).isSome
    · rw [if_pos hn]
      rcases List.mem_cons.mp hx with rfl | hx'
      · rcases Option.isSome_iff_exists.mp hn with ⟨v, hv⟩
        rw [expand_preserve d ns' dists queue x v hv]
        rfl
      · exact ih dists queue x hx'
    · rw [if_neg hn]
      rcases List.mem_cons.mp hx with rfl | hx'
      · rw [expand_preserve d ns' _ _ x (d + 1) (mget_mset_self dists x (d + 1))]
        rfl
      · exact ih _ _ x hx'

/-- Full characterization of the new queue entries produced by one `expand`
pass. -/
theorem expand_spec (d : Nat) : ∀ (ns : List String) (dists : List (String × Nat))
    (queue : List String),
    ∃ ext : List String,
      (expand d dists queue ns).2 = queue ++ ext ∧
      ext.Nodup ∧
      (∀ x, x ∈ ext ↔ (x ∈ ns ∧ mget dists x = none)) ∧
      (∀ x ∈ ext, mget (expand d dists queue ns).1 x = some (d + 1)) ∧
      (expand d dists queue ns).1.length = dists.length + ext.length ∧
      ((dists.map Prod.fst).Nodup → ((expand d dists queue ns).1.map Prod.fst).Nodup) := by
  intro ns
  induction ns with
  | nil =>
    intro dists queue
    exact ⟨[], by simp [expand], List.nodup_nil, by simp, by simp, by simp [expand], fun h => h⟩
  | cons n ns' ih =>
    intro dists queue
    by_cases hn : (mget dists n).isSome
    · obtain ⟨ext, hq, hnd, hiff, hval, hlen, hkeys⟩ := ih dists queue
      have hred : expand d dists queue (n :: ns') = expand d dists queue ns' := by
        simp only [expand, if_pos hn]
      rw [hred]
      refine ⟨ext, hq, hnd, ?_, hval, hlen, hkeys⟩
      intro x
      rw [hiff x]
      constructor
      · rintro ⟨hx, hnone⟩
        exact ⟨List.mem_cons_of_mem n hx, hnone⟩
      · rintro ⟨hx, hnone⟩
        rcases List.mem_cons.mp hx with rfl | hx'
        · rw [hnone] at hn; simp at hn
        · exact ⟨hx', hnone⟩
    · have hnone : mget dists n = none := by
        cases hg : mget dists n
        · rfl
        · rw [hg] at hn; exact absurd rfl hn
      obtain ⟨ext, hq, hnd, hiff, hval, hlen, hkeys⟩ := ih (mset dists n (d + 1)) (queue ++ [n])
      have hred : expand d dists queue (n :: ns') =
          expand d (mset dists n (d + 1)) (queue ++ [n]) ns' := by
        simp only [expand, if_neg hn]
      rw [hred]
      have hnotext : n ∉ ext := by
        intro hc
        have := ((hiff n).mp hc).2
        rw [mget_mset_self] at this
        cases this
      refine ⟨n :: ext, by rw [hq]; simp, List.nodup_cons.mpr ⟨hnotext, hnd⟩,
        ?_, ?_, ?_, ?_⟩
      · intro x
        constructor
        · intro hx
          rcases List.mem_cons.mp hx with rfl | hx'
          · exact ⟨List.mem_cons_self _ _, hnone⟩
          · obtain ⟨hxns, hxnone⟩ := (hiff x).mp hx'
            have hxn : x ≠ n := by
              intro hc; subst hc
              rw [mget_mset_self] at hxnone
              cases hxnone
            rw [mget_mset_ne _ _ _ _ hxn] at hxnone
            exact ⟨List.mem_cons_of_mem n hxns, hxnone⟩
        · rintro ⟨hx, hxnone⟩
          by_cases hxn : x = n
          · subst hxn; exact List.mem_cons_self _ _
          · rcases List.mem_cons.mp hx with rfl | hx'
            · exact absurd rfl hxn
            · refine List.mem_cons_of_mem n ((hiff x).mpr ⟨hx', ?_⟩)
              rw [mget_mset_ne _ _ _ _ hxn]
              exact hxnone
      · intro x hx
        rcases List.mem_cons.mp hx with rfl | hx'
        · exact expand_preserve d ns' _ _ x (d + 1) (mget_mset_self dists x (d + 1))
        · exact hval x hx'
      · rw [hlen, mset_absent_append dists n (d + 1) hnone]
        simp only [List.length_append, List.length_cons, List.length_nil]
        omega
      · intro hdk
        refine hkeys ?_
        rw [mset_absent_append dists n (d + 1) hnone, List.map_append]
        simp only [List.map_cons, List.map_nil]
        rw [List.nodup_append]
        refine ⟨hdk, List.nodup_singleton n, ?_⟩
        intro a ha hb
        rcases List.mem_singleton.mp hb with rfl
        exact (mget_eq_none dists a).mp hnone ha

theorem filter_length_mono (p p' : String → Bool)
    (himp : ∀ x, p' x = true → p x = true) :
    ∀ l : List String, (l.filter p').length ≤ (l.filter p).length := by
  intro l
  induction l with
  | nil => simp
  | cons u us ih =>
    by_cases hu : p' u = true
    · rw [List.filter_cons_of_pos hu, List.filter_cons_of_pos (himp u hu)]
      simpa using ih
    · rw [List.filter_cons_of_neg (by simpa using hu)]
      by_cases hu2 : p u = true
      · rw [List.filter_cons_of_pos hu2]
        exact le_trans ih (by simp)
      · rw [List.filter_cons_of_neg (by simpa using hu2)]
        exact ih

theorem filter_length_lt (p p' : String → Bool) (n : String)
    (hpn : p n = true) (hp'n : p' n = false)
    (hagree : ∀ x, x ≠ n → p' x = p x) :
    ∀ univ : List String, n ∈ univ →
    (univ.filter p').length + 1 ≤ (univ.filter p).length := by
  intro univ
  induction univ with
  | nil => intro h; cases h
  | cons u us ih =>
    intro hmem
    by_cases hu : u = n
    · have hpu : p u = true := by rw [hu]; exact hpn
      have hpu' : p' u = false := by rw [hu]; exact hp'n
      rw [List.filter_cons_of_pos hpu, List.filter_cons_of_neg (by simp [hpu'])]
      have hmono : (us.filter p').length ≤ (us.filter p).length := by
        refine filter_length_mono p p' ?_ us
        intro x hx
        by_cases hxn : x = n
        · rw [hxn, hp'n] at hx; cases hx
        · rw [hagree x hxn] at hx; exact hx
      simp only [List.length_cons]
      omega
    · have hmem' : n ∈ us := by
        rcases List.mem_cons.mp hmem with heq | h
        · exact absurd heq.symm hu
        · exact h
      have hpp : p' u = p u := hagree u hu
      by_cases hpu : p u = true
      · have hpu2 : p' u = true := by rw [hpp]; exact hpu
        rw [List.filter_cons_of_pos hpu, List.filter_cons_of_pos hpu2]
        simp only [List.length_cons]
        have := ih hmem'
        omega
      · have hpu2 : ¬ p' u = true := by rw [hpp]; exact hpu
        rw [List.filter_cons_of_neg (by simpa using hpu2),
          List.filter_cons_of_neg (by simpa using hpu)]
        exact ih hmem'

theorem expand_measure (d : Nat) (univ : List String) :
    ∀ (ns : List String) (dists : List (String × Nat)) (queue : List String),
    (∀ n ∈ ns, n ∈ univ) →
    bfsMeasure univ (expand d dists queue ns).1 (expand d dists queue ns).2 ≤
      bfsMeasure univ dists queue := by
  intro ns
  induction ns with
  | nil => intro dists queue _; exact le_refl _
  | cons n ns' ih =>
    intro dists queue hsub
    simp only [expand]
    by_cases hn : (mget dists n).isSome
    · rw [if_pos hn]
      exact ih dists queue (fun x hx => hsub x (List.mem_cons_of_mem n hx))
    · rw [if_neg hn]
      have hnone : mget dists n = none := Option.not_isSome_iff_eq_none.mp hn
      refine le_trans (ih _ _ (fun x hx => hsub x (List.mem_cons_of_mem n hx))) ?_
      unfold bfsMeasure
      have hflt : ((univ.filter (fun x => (mget (mset dists n (d + 1)) x).isNone)).length + 1 ≤
          (univ.filter (fun x => (mget dists x).isNone)).length) := by
        refine filter_length_lt _ _ n ?_ ?_ ?_ univ (hsub n (List.mem_cons_self n ns'))
        · rw [hnone]; rfl
        · rw [mget_mset_self]; rfl
        · intro x hxn
          rw [mget_mset_ne _ _ _ _ hxn]
      simp only [List.length_append, List.length_cons, List.length_nil]
      omega

theorem adjGet_subset_univ (adj : List (String × List String)) (k x : String)
    (hx : x ∈ adjGet adj k) : x ∈ univOf adj := by
  unfold adjGet at hx
  cases hg : mget adj k with
  | none => rw [hg] at hx; cases hx
  | some l =>
    rw [hg] at hx
    simp only [Option.getD_some] at hx
    have hmem := mget_some_mem adj k l hg
    unfold univOf
    rw [List.mem_flatten]
    exact ⟨l, List.mem_map.mpr ⟨(k, l), hmem, rfl⟩, hx⟩

theorem bfsInv_init (adj : List (String × List String)) (hub : String) :
    BfsInv adj hub [(hub, 0)] [hub] := by
  have hview : ∀ n, mget [(hub, 0)] n = if hub = n then some 0 else none := by
    intro n; rfl
  refine ⟨?_, ?_, ?_, ?_, ?_, ?_, ?_, ?_, ?_, ?_, ?_, ?_⟩
  · simp
  · simp
  · intro n hn
    rcases List.mem_singleton.mp hn with rfl
    rw [hview n, if_pos rfl]
    rfl
  · intro n d hd
    rw [hview n] at hd
    by_cases h : hub = n
    · rw [if_pos h] at hd
      cases hd
      subst h
      exact WalkR.refl
    · rw [if_neg h] at hd; cases hd
  · rw [hview hub, if_pos rfl]
  · intro n hd
    rw [hview n] at hd
    by_cases h : hub = n
    · exact h.symm
    · rw [if_neg h] at hd; cases hd
  · intro n dn hd hq
    rw [hview n] at hd
    by_cases h : hub = n
    · subst h
      exact absurd (List.mem_singleton.mpr rfl) hq
    · rw [if_neg h] at hd; cases hd
  · simp
  · intro f hf n hn
    rcases List.mem_singleton.mp hn with rfl
    simp only [List.head?_cons, Option.some_inj] at hf
    subst hf
    exact Nat.le_succ _
  · intro n dn hd hq
    rw [hview n] at hd
    by_cases h : hub = n
    · subst h
      exact absurd (List.mem_singleton.mpr rfl) hq
    · rw [if_neg h] at hd; cases hd
  · intro n hd
    rw [hview n] at hd
    by_cases h : hub = n
    · exact Or.inl h.symm
    · rw [if_neg h] at hd; cases hd
  · intro n dn hd
    rw [hview n] at hd
    by_cases h : hub = n
    · rw [if_pos h] at hd
      cases hd
      simp
    · rw [if_neg h] at hd; cases hd

theorem pairwise_le_of_const (c : Nat) :
    ∀ l : List Nat, (∀ x ∈ l, x = c) → l.Pairwise (· ≤ ·) := by
  intro l
  induction l with
  | nil => intro _; exact List.Pairwise.nil
  | cons x xs ih =>
    intro hc
    refine List.pairwise_cons.mpr ⟨?_, ih (fun y hy => hc y (List.mem_cons_of_mem x hy))⟩
    intro y hy
    rw [hc x (List.mem_cons_self x xs), hc y (List.mem_cons_of_mem x hy)]

/-- One dequeue step preserves the BFS invariants. -/
theorem bfs_step_preserve (adj : List (String × List String)) (hub current : String)
    (rest : List String) (dists : List (String × Nat))
    (hinv : BfsInv adj hub dists (current :: rest)) :
    BfsInv adj hub
      (expand ((mget dists current).getD 0) dists rest (adjGet adj current)).1
      (expand ((mget dists current).getD 0) dists rest (adjGet adj current)).2 := by
  obtain ⟨dcur, hdcur⟩ := Option.isSome_iff_exists.mp
    (hinv.qKeyed current (List.mem_cons_self _ _))
  have hcur : mget dists current = some ((mget dists current).getD 0) := by
    rw [hdcur]; rfl
  set d := (mget dists current).getD 0 with hdDef
  set ns := adjGet adj current with hnsDef
  obtain ⟨ext, hq, hextnd, hiff, hval, hlen, hkeys⟩ := expand_spec d ns dists rest
  have hrestPres : ∀ x ∈ rest, mget (expand d dists rest ns).1 x = mget dists x := by
    intro x hx
    obtain ⟨v, hv⟩ := Option.isSome_iff_exists.mp
      (hinv.qKeyed x (List.mem_cons_of_mem current hx))
    rw [hv]
    exact expand_preserve d ns dists rest x v hv
  have hHeadRest : ∀ x ∈ rest, d ≤ (mget dists x).getD 0 := by
    have hps := List.pairwise_cons.mp (by
      have := hinv.sortedQ
      rw [List.map_cons] at this
      exact this)
    intro x hx
    exact hps.1 _ (List.mem_map.mpr ⟨x, hx, rfl⟩)
  have hSortedRest : (rest.map (fun n => (mget dists n).getD 0)).Pairwise (· ≤ ·) := by
    have := hinv.sortedQ
    rw [List.map_cons] at this
    exact (List.pairwise_cons.mp this).2
  have hwidth : ∀ x ∈ current :: rest, (mget dists x).getD 0 ≤ d + 1 :=
    fun x hx => hinv.widthQ current (by simp) x hx
  have hextVal : ∀ x ∈ ext, mget (expand d dists rest ns).1 x = some (d + 1) := hval
  refine ⟨hkeys hinv.nodupKeys, ?_, ?_, ?_, ?_, ?_, ?_, ?_, ?_, ?_, ?_, ?_⟩
  · -- nodupQ
    rw [hq]
    refine List.nodup_append.mpr ⟨(List.nodup_cons.mp hinv.nodupQ).2, hextnd, ?_⟩
    intro a ha hb
    have h1 := hinv.qKeyed a (List.mem_cons_of_mem current ha)
    have h2 := ((hiff a).mp hb).2
    rw [h2] at h1
    simp at h1
  · -- qKeyed
    intro n hn
    rw [hq] at hn
    rcases List.mem_append.mp hn with hn | hn
    · rw [hrestPres n hn]
      exact hinv.qKeyed n (List.mem_cons_of_mem current hn)
    · rw [hextVal n hn]; rfl
  · -- sound
    intro n v hv
    rcases expand_new d ns dists rest n v hv with hold | ⟨rfl, hmem, _⟩
    · exact hinv.sound n v hold
    · exact WalkR.step (hinv.sound current d hcur) hmem
  · -- hub0
    exact expand_preserve d ns dists rest hub 0 hinv.hub0
  · -- zeroOnly
    intro n hn
    rcases expand_new d ns dists rest n 0 hn with hold | ⟨hzero, _, _⟩
    · exact hinv.zeroOnly n hold
    · cases hzero
  · -- processed
    intro n dn hdn hnq m hm
    have hnotrest : n ∉ rest := fun hc => hnq (by rw [hq]; exact List.mem_append.mpr (Or.inl hc))
    have hnotext : n ∉ ext := fun hc => hnq (by rw [hq]; exact List.mem_append.mpr (Or.inr hc))
    rcases expand_new d ns dists rest n dn hdn with hold | ⟨rfl, hmem, hnone⟩
    · by_cases hnc : n = current
      · subst hnc
        have hdd : dn = d := by
          rw [hcur] at hold
          exact (Option.some_inj.mp hold).symm
        subst hdd
        cases hm' : mget dists m with
        | some dm =>
          refine ⟨dm, expand_preserve d ns dists rest m dm hm', ?_⟩
          by_cases hmq : m ∈ n :: rest
          · have := hwidth m hmq
            rw [hm'] at this
            exact this
          · have := hinv.procLe m dm hm' hmq n (List.mem_cons_self _ _)
            rw [hcur] at this
            simp only [Option.getD_some] at this
            omega
        | none =>
          refine ⟨d + 1, hextVal m ((hiff m).mpr ⟨hm, hm'⟩), le_refl _⟩
      · have hnq0 : n ∉ current :: rest := by
          intro hc
          rcases List.mem_cons.mp hc with rfl | hc
          · exact hnc rfl
          · exact hnotrest hc
        obtain ⟨dm, hdm, hb⟩ := hinv.processed n dn hold hnq0 m hm
        exact ⟨dm, expand_preserve d ns dists rest m dm hdm, hb⟩
    · exact absurd ((hiff n).mpr ⟨hmem, hnone⟩) hnotext
  · -- sortedQ
    rw [hq, List.map_append]
    refine List.pairwise_append.mpr ⟨?_, ?_, ?_⟩
    · rw [List.map_congr_left (fun x hx => by rw [hrestPres x hx])]
      exact hSortedRest
    · refine pairwise_le_of_const (d + 1) _ ?_
      intro x hx
      rcases List.mem_map.mp hx with ⟨y, hy, rfl⟩
      rw [hextVal y hy]
      rfl
    · intro a ha b hb
      rcases List.mem_map.mp ha with ⟨x, hx, rfl⟩
      rcases List.mem_map.mp hb with ⟨y, hy, rfl⟩
      rw [hrestPres x hx, hextVal y hy]
      have := hwidth x (List.mem_cons_of_mem current hx)
      simp only [Option.getD_some]
      exact this
  · -- widthQ: every queue entry is within one of the (old) front's distance;
    -- only membership of the head is needed, not its position.
    intro f hf n hn
    rw [hq] at hf hn
    have hfmem : f ∈ rest ++ ext := by
      cases hc : rest ++ ext with
      | nil => rw [hc] at hf; cases hf
      | cons a l =>
        rw [hc] at hf
        simp only [List.head?_cons, Option.some_inj] at hf
        rw [← hf]
        exact List.mem_cons_self _ _
    rcases List.mem_append.mp hfmem with hfr | hfe
    · rw [hrestPres f hfr]
      have h2 := hHeadRest f hfr
      rcases List.mem_append.mp hn with hnr | hne
      · rw [hrestPres n hnr]
        have h1 := hwidth n (List.mem_cons_of_mem current hnr)
        omega
      · rw [hextVal n hne]
        simp only [Option.getD_some]
        omega
    · rw [hextVal f hfe]
      rcases List.mem_append.mp hn with hnr | hne
      · rw [hrestPres n hnr]
        have h1 := hwidth n (List.mem_cons_of_mem current hnr)
        simp only [Option.getD_some]
        omega
      · rw [hextVal n hne]
        simp
  · -- procLe
    intro n dn hdn hnq q hq1
    have hnotrest : n ∉ rest := fun hc => hnq (by rw [hq]; exact List.mem_append.mpr (Or.inl hc))
    have hnotext : n ∉ ext := fun hc => hnq (by rw [hq]; exact List.mem_append.mpr (Or.inr hc))
    rw [hq] at hq1
    rcases expand_new d ns dists rest n dn hdn with hold | ⟨rfl, hmem, hnone⟩
    · by_cases hnc : n = current
      · subst hnc
        have hdd : dn = d := by
          rw [hcur] at hold
          exact (Option.some_inj.mp hold).symm
        subst hdd
        rcases List.mem_append.mp hq1 with hq1 | hq1
        · rw [hrestPres q hq1]
          exact hHeadRest q hq1
        · rw [hextVal q hq1]
          simp only [Option.getD_some]
          omega
      · have hnq0 : n ∉ current :: rest := by
          intro hc
          rcases List.mem_cons.mp hc with rfl | hc
          · exact hnc rfl
          · exact hnotrest hc
        rcases List.mem_append.mp hq1 with hq1 | hq1
        · rw [hrestPres q hq1]
          exact hinv.procLe n dn hold hnq0 q (List.mem_cons_of_mem current hq1)
        · rw [hextVal q hq1]
          have := hinv.procLe n dn hold hnq0 current (List.mem_cons_self _ _)
          rw [hcur] at this
          simp only [Option.getD_some] at this ⊢
          omega
    · exact absurd ((hiff n).mpr ⟨hmem, hnone⟩) hnotext
  · -- keysSub
    intro n hn
    obtain ⟨v, hv⟩ := Option.isSome_iff_exists.mp hn
    rcases expand_new d ns dists rest n v hv with hold | ⟨_, hmem, _⟩
    · exact hinv.keysSub n (by rw [hold]; rfl)
    · exact Or.inr (adjGet_subset_univ adj current n hmem)
  · -- valBound
    intro n dn hdn
    rcases expand_new d ns dists rest n dn hdn with hold | ⟨rfl, hmem, hnone⟩
    · have := hinv.valBound n dn hold
      rw [hlen]
      omega
    · have hne : n ∈ ext := (hiff n).mpr ⟨hmem, hnone⟩
      have hextpos : 1 ≤ ext.length := by
        cases ext with
        | nil => cases hne
        | cons e es => simp
      have := hinv.valBound current d hcur
      rw [hlen]
      omega

/-- With fuel dominating the variant, the loop drains the queue while
maintaining the invariants. -/
theorem bfsLoop_inv (adj : List (String × List String)) (hub : String) :
    ∀ (fuel : Nat) (dists : List (String × Nat)) (queue : List String),
    bfsMeasure (univOf adj) dists queue ≤ fuel →
    BfsInv adj hub dists queue →
    BfsInv adj hub (bfsLoop adj fuel dists queue) [] := by
  intro fuel
  induction fuel with
  | zero =>
    intro dists queue hm hinv
    have hq : queue = [] := by
      unfold bfsMeasure at hm
      cases queue with
      | nil => rfl
      | cons a l => simp only [List.length_cons] at hm; omega
    subst hq
    exact hinv
  | succ fuel ih =>
    intro dists queue hm hinv
    cases queue with
    | nil => exact hinv
    | cons current rest =>
      show BfsInv adj hub (bfsLoop adj fuel
        (expand ((mget dists current).getD 0) dists rest (adjGet adj current)).1
        (expand ((mget dists current).getD 0) dists rest (adjGet adj current)).2) []
      refine ih _ _ ?_ (bfs_step_preserve adj hub current rest dists hinv)
      have hexp := expand_measure ((mget dists current).getD 0) (univOf adj)
        (adjGet adj current) dists rest
        (fun n hn => adjGet_subset_univ adj current n hn)
      have hcons : bfsMeasure (univOf adj) dists (current :: rest) =
          bfsMeasure (univOf adj) dists rest + 1 := by
        unfold bfsMeasure
        simp only [List.length_cons]
        omega
      omega

/-- Minimality at termination: any walk to `n` bounds the recorded
distance. -/
theorem bfs_min (adj : List (String × List String)) (hub : String)
    (dists : List (String × Nat)) (hinv : BfsInv adj hub dists []) :
    ∀ n k, WalkR (nbr adj) hub n k → ∃ dn, mget dists n = some dn ∧ dn ≤ k := by
  intro n k hw
  induction hw with
  | refl => exact ⟨0, hinv.hub0, le_refl 0⟩
  | step hxy hr ih =>
    obtain ⟨dy, hdy, hdyk⟩ := ih
    obtain ⟨dz, hdz, hb⟩ := hinv.processed _ dy hdy (by simp) _ hr
    exact ⟨dz, hdz, by omega⟩

/-- The recorded distances are downward closed: every value below a recorded
value is itself recorded at some node. -/
theorem bfs_contiguous (adj : List (String × List String)) (hub : String)
    (dists : List (String × Nat)) (hinv : BfsInv adj hub dists []) :
    ∀ dn n, mget dists n = some dn → ∀ j, j ≤ dn → ∃ m, mget dists m = some j := by
  intro dn
  induction dn using Nat.strong_induction_on with
  | _ dn ih =>
    intro n hn j hj
    rcases Nat.eq_or_lt_of_le hj with rfl | hlt
    · exact ⟨n, hn⟩
    · cases dn with
      | zero => omega
      | succ t =>
        have hw := hinv.sound n (t + 1) hn
        cases hw with
        | step hxy hr =>
          rename_i y
          obtain ⟨dy, hdy, hdyt⟩ := bfs_min adj hub dists hinv y t hxy
          have hw2 : WalkR (nbr adj) hub n (dy + 1) :=
            WalkR.step (hinv.sound y dy hdy) hr
          obtain ⟨dn', hdn', hle⟩ := bfs_min adj hub dists hinv n (dy + 1) hw2
          rw [hn] at hdn'
          have hdnt : dn' = t + 1 := (Option.some_inj.mp hdn').symm
          have hdyeq : dy = t := by omega
          subst hdyeq
          exact ih dy (by omega) y hdy j (by omega)

/-!  ### From the abstract BFS to `buildMetrics`  -/

/-- The adjacency-ensuring step (`if (!adjacency.has(k)) adjacency.set(k, new Set())`). -/
def adjEnsure (A : List (String × List String)) (k : String) : List (String × List String) :=
  if (mget A k).isSome then A else mset A k []

/-- The adjacency half of `metricsStep`. -/
def adjStep (A : List (String × List String)) (e : GEdge) : List (String × List String) :=
  let a2 := adjEnsure (adjEnsure A e.src) e.dst
  let a3 := mset a2 e.src (sadd (adjGet a2 e.src) e.dst)
  mset a3 e.dst (sadd (adjGet a3 e.dst) e.src)

theorem metricsStep_snd (dm : List (String × Nat) × List (String × List String)) (e : GEdge) :
    (metricsStep dm e).2 = adjStep dm.2 e := rfl

theorem foldl_metricsStep_snd : ∀ (es : List GEdge)
    (dm : List (String × Nat) × List (String × List String)),
    (es.foldl metricsStep dm).2 = es.foldl adjStep dm.2 := by
  intro es
  induction es with
  | nil => intro dm; rfl
  | cons e rest ih =>
    intro dm
    simp only [List.foldl_cons]
    rw [ih (metricsStep dm e), metricsStep_snd]

theorem initMetrics_snd : ∀ (ns : List GNode)
    (dm : List (String × Nat) × List (String × List String)),
    (ns.foldl (fun dm node => (mset dm.1 node.id 0, mset dm.2 node.id [])) dm).2 =
      ns.foldl (fun A node => mset A node.id []) dm.2 := by
  intro ns
  induction ns with
  | nil => intro dm; rfl
  | cons n rest ih =>
    intro dm
    simp only [List.foldl_cons]
    rw [ih]

theorem adjGet_mset_self (A : List (String × List String)) (k : String) (v : List String) :
    adjGet (mset A k v) k = v := by
  unfold adjGet
  rw [mget_mset_self]
  rfl

theorem adjGet_mset_ne (A : List (String × List String)) (k k' : String) (v : List String)
    (h : k' ≠ k) : adjGet (mset A k v) k' = adjGet A k' := by
  unfold adjGet
  rw [mget_mset_ne _ _ _ _ h]

theorem adjGet_ensure (A : List (String × List String)) (k x : String) :
    adjGet (adjEnsure A k) x = adjGet A x := by
  unfold adjEnsure
  split
  · rfl
  · rename_i hn
    have hnone : mget A k = none := Option.not_isSome_iff_eq_none.mp hn
    by_cases hkx : x = k
    · subst hkx
      rw [adjGet_mset_self]
      unfold adjGet
      rw [hnone]
      rfl
    · rw [adjGet_mset_ne _ _ _ _ hkx]

theorem adjStep_mem (A : List (String × List String)) (e : GEdge) (x y : String) :
    y ∈ adjGet (adjStep A e) x ↔
      y ∈ adjGet A x ∨ (x = e.src ∧ y = e.dst) ∨ (x = e.dst ∧ y = e.src) := by
  unfold adjStep
  simp only
  have ha2 : ∀ z, adjGet (adjEnsure (adjEnsure A e.src) e.dst) z = adjGet A z := by
    intro z; rw [adjGet_ensure, adjGet_ensure]
  have ha3 : ∀ z, adjGet (mset (adjEnsure (adjEnsure A e.src) e.dst) e.src
      (sadd (adjGet (adjEnsure (adjEnsure A e.src) e.dst) e.src) e.dst)) z =
      if z = e.src then sadd (adjGet A e.src) e.dst else adjGet A z := by
    intro z
    by_cases hz : z = e.src
    · rw [if_pos hz, hz, adjGet_mset_self, ha2]
    · rw [if_neg hz, adjGet_mset_ne _ _ _ _ hz, ha2]
  by_cases hxd : x = e.dst
  · rw [hxd, adjGet_mset_self, mem_sadd, ha3]
    by_cases hds : e.dst = e.src
    · rw [if_pos hds, mem_sadd]
      have hsame : adjGet A e.dst = adjGet A e.src := by rw [hds]
      rw [hsame]
      constructor
      · rintro ((hy | rfl) | rfl)
        · exact Or.inl hy
        · exact Or.inr (Or.inl ⟨hds, rfl⟩)
        · exact Or.inr (Or.inr ⟨rfl, rfl⟩)
      · rintro (hy | ⟨_, rfl⟩ | ⟨_, rfl⟩)
        · exact Or.inl (Or.inl hy)
        · exact Or.inl (Or.inr rfl)
        · exact Or.inr rfl
    · rw [if_neg (fun hc => hds hc)]
      constructor
      · rintro (hy | rfl)
        · exact Or.inl hy
        · exact Or.inr (Or.inr ⟨rfl, rfl⟩)
      · rintro (hy | ⟨hxs, _⟩ | ⟨_, rfl⟩)
        · exact Or.inl hy
        · exact absurd hxs hds
        · exact Or.inr rfl
  · rw [adjGet_mset_ne _ _ _ _ hxd, ha3]
    by_cases hxs : x = e.src
    · rw [if_pos hxs, mem_sadd, hxs]
      constructor
      · rintro (hy | rfl)
        · exact Or.inl hy
        · exact Or.inr (Or.inl ⟨rfl, rfl⟩)
      · rintro (hy | ⟨_, rfl⟩ | ⟨hsd, _⟩)
        · exact Or.inl hy
        · exact Or.inr rfl
        · exact absurd hsd (hxs ▸ hxd)
    · rw [if_neg hxs]
      constructor
      · exact Or.inl
      · rintro (hy | ⟨hxs2, _⟩ | ⟨hxd2, _⟩)
        · exact hy
        · exact absurd hxs2 hxs
        · exact absurd hxd2 hxd

/-- Adjacency restricted to a list of edges, for the fold invariant. -/
def AdjacentL (E : List GEdge) (x y : String) : Prop :=
  ∃ e ∈ E, (e.src = x ∧ e.dst = y) ∨ (e.src = y ∧ e.dst = x)

theorem adjGet_foldl_mem : ∀ (E : List GEdge) (A : List (String × List String)) (x y : String),
    y ∈ adjGet (E.foldl adjStep A) x ↔ y ∈ adjGet A x ∨ AdjacentL E x y := by
  intro E
  induction E with
  | nil =>
    intro A x y
    simp [AdjacentL]
  | cons e rest ih =>
    intro A x y
    simp only [List.foldl_cons]
    rw [ih, adjStep_mem]
    unfold AdjacentL
    simp only [List.mem_cons]
    constructor
    · rintro ((hy | he) | ⟨e', he', hcase⟩)
      · exact Or.inl hy
      · refine Or.inr ⟨e, Or.inl rfl, ?_⟩
        rcases he with ⟨h1, h2⟩ | ⟨h1, h2⟩
        · exact Or.inl ⟨h1.symm, h2.symm⟩
        · exact Or.inr ⟨h2.symm, h1.symm⟩
      · exact Or.inr ⟨e', Or.inr he', hcase⟩
    · rintro (hy | ⟨e', he', hcase⟩)
      · exact Or.inl (Or.inl hy)
      · rcases he' with rfl | he'
        · refine Or.inl (Or.inr ?_)
          rcases hcase with ⟨h1, h2⟩ | ⟨h1, h2⟩
          · exact Or.inl ⟨h1.symm, h2.symm⟩
          · exact Or.inr ⟨h2.symm, h1.symm⟩
        · exact Or.inr ⟨e', he', hcase⟩

theorem adjGet_init_nil : ∀ (ns : List GNode) (A : List (String × List String)),
    (∀ x, adjGet A x = []) → ∀ x,
    adjGet (ns.foldl (fun A node => mset A node.id []) A) x = [] := by
  intro ns
  induction ns with
  | nil => intro A h x; exact h x
  | cons n rest ih =>
    intro A h x
    simp only [List.foldl_cons]
    refine ih _ ?_ x
    intro z
    by_cases hz : z = n.id
    · subst hz; rw [adjGet_mset_self]
    · rw [adjGet_mset_ne _ _ _ _ hz]; exact h z

/-- The adjacency map built by `buildMetrics` represents exactly the
snapshot's undirected adjacency relation. -/
theorem buildMetrics_adj_mem (g : Graph) (x y : String) :
    y ∈ adjGet (buildMetrics g).adjacency x ↔ Adjacent g x y := by
  show y ∈ adjGet (metricsPair g).2 x ↔ Adjacent g x y
  unfold metricsPair
  rw [foldl_metricsStep_snd]
  unfold initMetrics
  rw [initMetrics_snd]
  rw [adjGet_foldl_mem]
  have h0 : adjGet (g.nodes.foldl (fun A node => mset A node.id []) []) x = [] :=
    adjGet_init_nil g.nodes [] (fun z => rfl) x
  rw [h0]
  simp only [List.not_mem_nil, false_or]
  exact Iff.rfl

/-- The distances of `buildMetrics` satisfy the terminal BFS invariants. -/
theorem buildMetrics_inv (g : Graph) (h : String)
    (hhub : (buildMetrics g).hubId = some h) :
    BfsInv (buildMetrics g).adjacency h (buildMetrics g).distances [] := by
  have hpick : pickHub (metricsPair g).1 = some h := hhub
  have hdist : (buildMetrics g).distances = bfsFrom (metricsPair g).2 h := by
    show (match pickHub (metricsPair g).1 with
      | none => []
      | some h => bfsFrom (metricsPair g).2 h) = _
    rw [hpick]
  rw [hdist]
  show BfsInv (metricsPair g).2 h _ []
  unfold bfsFrom
  refine bfsLoop_inv (metricsPair g).2 h _ [(h, 0)] [h] ?_ (bfsInv_init _ h)
  unfold bfsMeasure
  have := List.length_filter_le (fun n => (mget [(h, 0)] n).isNone)
    (univOf (metricsPair g).2)
  simp only [List.length_cons, List.length_nil]
  omega

/-- Total size of the adjacency sets. -/
def asize (A : List (String × List String)) : Nat :=
  (A.map (fun kv => kv.2.length)).sum

theorem univOf_length (A : List (String × List String)) :
    (univOf A).length = asize A := by
  unfold univOf asize
  rw [List.length_flatten, List.map_map]
  rfl

theorem sadd_length_le [DecidableEq α] (s : List α) (x : α) :
    (sadd s x).length ≤ s.length + 1 := by
  unfold sadd
  split
  · omega
  · simp

theorem asize_mset_sadd : ∀ (A : List (String × List String)) (k z : String),
    asize (mset A k (sadd (adjGet A k) z)) ≤ asize A + 1 := by
  intro A
  induction A with
  | nil =>
    intro k z
    show asize [(k, sadd (adjGet [] k) z)] ≤ asize [] + 1
    have : adjGet ([] : List (String × List String)) k = [] := rfl
    rw [this]
    simp [asize, sadd]
  | cons p r ih =>
    intro k z
    obtain ⟨k0, w0⟩ := p
    by_cases h0 : k0 = k
    · subst h0
      have h1 : adjGet ((k0, w0) :: r) k0 = w0 := by
        simp [adjGet, mget]
      rw [h1]
      have h2 : mset ((k0, w0) :: r) k0 (sadd w0 z) = (k0, sadd w0 z) :: r := by
        simp [mset]
      rw [h2]
      have := sadd_length_le w0 z
      simp only [asize, List.map_cons, List.sum_cons]
      omega
    · have h1 : adjGet ((k0, w0) :: r) k = adjGet r k := by
        simp [adjGet, mget, h0]
      rw [h1]
      have h2 : mset ((k0, w0) :: r) k (sadd (adjGet r k) z) =
          (k0, w0) :: mset r k (sadd (adjGet r k) z) := by
        simp [mset, h0]
      rw [h2]
      have := ih k z
      unfold asize at this
      simp only [asize, List.map_cons, List.sum_cons]
      omega

theorem asize_ensure_le (A : List (String × List String)) (k : String) :
    asize (adjEnsure A k) ≤ asize A := by
  unfold adjEnsure
  split
  · exact le_refl _
  · rename_i hn
    rw [mset_absent_append A k [] (Option.not_isSome_iff_eq_none.mp hn)]
    unfold asize
    rw [List.map_append, List.sum_append]
    simp

theorem adjStep_asize (A : List (String × List String)) (e : GEdge) :
    asize (adjStep A e) ≤ asize A + 2 := by
  unfold adjStep
  simp only
  have h1 : asize (adjEnsure (adjEnsure A e.src) e.dst) ≤ asize A :=
    le_trans (asize_ensure_le _ _) (asize_ensure_le _ _)
  have h2 := asize_mset_sadd (adjEnsure (adjEnsure A e.src) e.dst) e.src e.dst
  have h3 := asize_mset_sadd (mset (adjEnsure (adjEnsure A e.src) e.dst) e.src
    (sadd (adjGet (adjEnsure (adjEnsure A e.src) e.dst) e.src) e.dst)) e.dst e.src
  omega

theorem foldl_adjStep_asize : ∀ (E : List GEdge) (A : List (String × List String)),
    asize (E.foldl adjStep A) ≤ asize A + 2 * E.length := by
  intro E
  induction E with
  | nil => intro A; simp
  | cons e rest ih =>
    intro A
    simp only [List.foldl_cons, List.length_cons]
    have h1 := ih (adjStep A e)
    have h2 := adjStep_asize A e
    omega

theorem asize_mset_nil : ∀ (A : List (String × List String)) (k : String),
    asize (mset A k []) ≤ asize A := by
  intro A
  induction A with
  | nil => intro k; simp [mset, asize]
  | cons p r ih =>
    intro k
    obtain ⟨k0, w0⟩ := p
    by_cases h0 : k0 = k
    · subst h0
      simp [mset, asize]
    · simp only [mset, if_neg h0, asize, List.map_cons, List.sum_cons]
      have := ih k
      unfold asize at this
      omega

theorem init_adj_asize : ∀ (ns : List GNode) (A : List (String × List String)),
    asize (ns.foldl (fun A node => mset A node.id []) A) ≤ asize A := by
  intro ns
  induction ns with
  | nil => intro A; exact le_refl _
  | cons n rest ih =>
    intro A
    simp only [List.foldl_cons]
    exact le_trans (ih _) (asize_mset_nil A n.id)

theorem adjacency_univ_size (g : Graph) :
    (univOf (buildMetrics g).adjacency).length ≤ 2 * g.edges.length := by
  show (univOf (metricsPair g).2).length ≤ _
  rw [univOf_length]
  unfold metricsPair
  rw [foldl_metricsStep_snd]
  unfold initMetrics
  rw [initMetrics_snd]
  have h1 := foldl_adjStep_asize g.edges
    (g.nodes.foldl (fun A node => mset A node.id []) [])
  have h2 := init_adj_asize g.nodes []
  have h3 : asize ([] : List (String × List String)) = 0 := rfl
  show asize (g.edges.foldl adjStep
    (g.nodes.foldl (fun A node => mset A node.id []) [])) ≤ 2 * g.edges.length
  omega

theorem mget_isSome_mem_keys [DecidableEq α] (m : List (α × β)) (k : α) :
    (mget m k).isSome = true ↔ k ∈ m.map Prod.fst := by
  constructor
  · intro h
    by_contra hk
    rw [(mget_eq_none m k).mpr hk] at h
    simp at h
  · intro hk
    cases hg : mget m k
    · exact absurd hk ((mget_eq_none m k).mp hg)
    · rfl

theorem nodup_subset_length [DecidableEq α] (l l' : List α) (hn : l.Nodup)
    (hsub : ∀ x ∈ l, x ∈ l') : l.length ≤ l'.length := by
  have h1 : l.toFinset.card = l.length := List.toFinset_card_of_nodup hn
  have h2 : l.toFinset ⊆ l'.toFinset := by
    intro a ha
    rw [List.mem_toFinset] at ha ⊢
    exact hsub a ha
  have h3 := Finset.card_le_card h2
  have h4 := l'.toFinset_card_le
  omega

theorem distances_length_le (g : Graph) (h : String)
    (hhub : (buildMetrics g).hubId = some h) :
    (buildMetrics g).distances.length ≤ 2 * g.edges.length + 1 := by
  have hinv := buildMetrics_inv g h hhub
  have hkeys : ∀ x ∈ (buildMetrics g).distances.map Prod.fst,
      x ∈ h :: univOf (buildMetrics g).adjacency := by
    intro x hx
    rcases hinv.keysSub x ((mget_isSome_mem_keys _ x).mpr hx) with rfl | hx2
    · exact List.mem_cons_self _ _
    · exact List.mem_cons_of_mem _ hx2
  have hle := nodup_subset_length _ _ hinv.nodupKeys hkeys
  rw [List.length_map] at hle
  have h2 := adjacency_univ_size g
  simp only [List.length_cons] at hle
  omega

/-- `Number.MAX_SAFE_INTEGER`. -/
def maxSafeInteger : Nat := 2 ^ 53 - 1

/-- On snapshots of sane size every BFS distance is below the sentinel. -/
theorem attained_lt_maxSafe (g : Graph) (h : String)
    (hhub : (buildMetrics g).hubId = some h)
    (hsize : 2 * g.edges.length + 2 < 2 ^ 53) :
    ∀ n d, mget (buildMetrics g).distances n = some d → d < maxSafeInteger := by
  intro n d hd
  have h1 := (buildMetrics_inv g h hhub).valBound n d hd
  have h2 := distances_length_le g h hhub
  have hpow : (2 : Nat) ^ 53 = 9007199254740992 := by norm_num
  rw [hpow] at hsize
  unfold maxSafeInteger
  rw [hpow]
  omega

/-- The level a node is assigned by both layout functions:
`distances.has(id) ? distances.get(id) : Number.MAX_SAFE_INTEGER`. -/
def levelOf (g : Graph) (n : String) : Nat :=
  (mget (buildMetrics g).distances n).getD maxSafeInteger

/-- C4: on any snapshot with a hub, the hub's level is 0; every node
reachable from the hub gets as level the exact shortest walk length to it
over the snapshot's undirected adjacency; every unreachable node gets the one
sentinel `Number.MAX_SAFE_INTEGER`; and (for any snapshot of sane size) the
sentinel is strictly larger than every finite level assigned. -/
theorem bfs_levels_correct (g : Graph) (h : String)
    (hhub : (buildMetrics g).hubId = some h)
    (hsize : 2 * g.edges.length + 2 < 2 ^ 53) :
    levelOf g h = 0 ∧
    (∀ n, (∃ k, WalkR (Adjacent g) h n k) →
      WalkR (Adjacent g) h n (levelOf g n) ∧
      ∀ k, WalkR (Adjacent g) h n k → levelOf g n ≤ k) ∧
    (∀ n, (∀ k, ¬ WalkR (Adjacent g) h n k) → levelOf g n = maxSafeInteger) ∧
    (∀ n d, mget (buildMetrics g).distances n = some d → d < maxSafeInteger) := by
  have hinv := buildMetrics_inv g h hhub
  have hconv : ∀ x y, nbr (buildMetrics g).adjacency x y ↔ Adjacent g x y :=
    fun x y => buildMetrics_adj_mem g x y
  refine ⟨?_, ?_, ?_, ?_⟩
  · unfold levelOf
    rw [hinv.hub0]
    rfl
  · rintro n ⟨k, hw⟩
    have hw' : WalkR (nbr (buildMetrics g).adjacency) h n k :=
      WalkR_congr (fun a b => (hconv a b).symm) hw
    obtain ⟨dn, hdn, _⟩ := bfs_min _ _ _ hinv n k hw'
    have hlev : levelOf g n = dn := by unfold levelOf; rw [hdn]; rfl
    rw [hlev]
    constructor
    · exact WalkR_congr hconv (hinv.sound n dn hdn)
    · intro k' hk'
      obtain ⟨dn', hdn', hle⟩ := bfs_min _ _ _ hinv n k'
        (WalkR_congr (fun a b => (hconv a b).symm) hk')
      rw [hdn] at hdn'
      have := Option.some_inj.mp hdn'
      omega
  · intro n hnw
    unfold levelOf
    cases hg : mget (buildMetrics g).distances n with
    | none => rfl
    | some dn => exact absurd (WalkR_congr hconv (hinv.sound n dn hg)) (hnw dn)
  · exact attained_lt_maxSafe g h hhub hsize

/-- A three-node snapshot: `a — b` plus the isolated node `c`. -/
def pathGraph : Graph :=
  ⟨[⟨("a"), ("a")⟩, ⟨("b"), ("b")⟩, ⟨("c"), ("c")⟩], [⟨("a"), ("b"), 1⟩]⟩

/-- Witness for C4 on `pathGraph`. -/
theorem bfs_levels_correct_witness :
    ((buildMetrics pathGraph).hubId = some ("a") ∧
      2 * pathGraph.edges.length + 2 < 2 ^ 53) ∧
    (levelOf pathGraph ("a") = 0 ∧
      (∀ n, (∃ k, WalkR (Adjacent pathGraph) ("a") n k) →
        WalkR (Adjacent pathGraph) ("a") n (levelOf pathGraph n) ∧
        ∀ k, WalkR (Adjacent pathGraph) ("a") n k → levelOf pathGraph n ≤ k) ∧
      (∀ n, (∀ k, ¬ WalkR (Adjacent pathGraph) ("a") n k) →
        levelOf pathGraph n = maxSafeInteger) ∧
      (∀ n d, mget (buildMetrics pathGraph).distances n = some d →
        d < maxSafeInteger)) :=
  ⟨⟨by decide, by decide⟩,
    bfs_levels_correct pathGraph ("a") (by decide) (by decide)⟩

/-!  ### Layout engine (`src/public/app.js`): shared machinery

Both layouts group the snapshot's nodes into buckets by level, sort the
buckets by level, and then place each bucket's nodes by their index within
the bucket.  The generic lemmas here characterize the bucket map and the
final position map. -/

theorem mget_append [DecidableEq α] : ∀ (l₁ l₂ : List (α × β)) (k : α),
    mget (l₁ ++ l₂) k =
      match mget l₁ k with
      | some v => some v
      | none => mget l₂ k := by
  intro l₁
  induction l₁ with
  | nil => intro l₂ k; rfl
  | cons p r ih =>
    intro l₂ k
    obtain ⟨k₀, v₀⟩ := p
    by_cases h0 : k₀ = k
    · simp [mget, h0]
    · simp only [List.cons_append, mget, if_neg h0]
      exact ih l₂ k

theorem mget_of_mem_nodupKeys [DecidableEq α] :
    ∀ (l : List (α × β)) (k : α) (v : β), (k, v) ∈ l → (l.map Prod.fst).Nodup →
    mget l k = some v := by
  intro l
  induction l with
  | nil => intro k v hm _; cases hm
  | cons p r ih =>
    intro k v hm hnd
    obtain ⟨k₀, v₀⟩ := p
    simp only [List.map_cons, List.nodup_cons] at hnd
    rcases List.mem_cons.mp hm with heq | hm'
    · cases heq
      simp [mget]
    · have hk : k₀ ≠ k := by
        intro hc
        subst hc
        exact hnd.1 (List.mem_map.mpr ⟨(k₀, v), hm', rfl⟩)
      simp only [mget, if_neg hk]
      exact ih k v hm' hnd.2

theorem mset_keys [DecidableEq α] : ∀ (m : List (α × β)) (k : α) (v : β),
    (mset m k v).map Prod.fst =
      if k ∈ m.map Prod.fst then m.map Prod.fst else m.map Prod.fst ++ [k] := by
  intro m
  induction m with
  | nil => intro k v; simp [mset]
  | cons p r ih =>
    intro k v
    obtain ⟨k₀, v₀⟩ := p
    by_cases h0 : k₀ = k
    · subst h0
      simp [mset]
    · simp only [mset, if_neg h0, List.map_cons, ih]
      by_cases hk : k ∈ r.map Prod.fst
      · rw [if_pos hk, if_pos (List.mem_cons_of_mem _ hk)]
      · rw [if_neg hk, if_neg ?hne]
        · simp
        case hne =>
          intro hc
          rcases List.mem_cons.mp hc with heq | hc
          · exact h0 heq.symm
          · exact hk hc

theorem mset_keys_nodup [DecidableEq α] (m : List (α × β)) (k : α) (v : β)
    (h : (m.map Prod.fst).Nodup) : ((mset m k v).map Prod.fst).Nodup := by
  rw [mset_keys]
  split
  · exact h
  · rename_i hk
    rw [List.nodup_append]
    exact ⟨h, List.nodup_singleton k, by
      intro a ha hb
      rcases List.mem_singleton.mp hb with rfl
      exact hk ha⟩

/-- The level-bucket fold shared by both layouts: group a list by a `Nat`
key, appending each element's `val` to its bucket. -/
def bucketFold (key : σ → Nat) (val : σ → String) (xs : List σ) :
    List (Nat × List String) :=
  xs.foldl (fun bs x => mset bs (key x) ((mget bs (key x)).getD [] ++ [val x])) []

theorem bucketFold_keys_nodup (key : σ → Nat) (val : σ → String) (xs : List σ) :
    ((bucketFold key val xs).map Prod.fst).Nodup := by
  suffices h : ∀ (l : List σ) (bs : List (Nat × List String)),
      (bs.map Prod.fst).Nodup →
      ((l.foldl (fun bs x => mset bs (key x) ((mget bs (key x)).getD [] ++ [val x])) bs).map
        Prod.fst).Nodup by
    exact h xs [] (by simp)
  intro l
  induction l with
  | nil => intro bs h; exact h
  | cons x r ih =>
    intro bs h
    simp only [List.foldl_cons]
    exact ih _ (mset_keys_nodup _ _ _ h)

theorem bucket_mget [DecidableEq σ] (key : σ → Nat) (val : σ → String) :
    ∀ (xs : List σ) (L : Nat),
    mget (bucketFold key val xs) L =
      if (xs.filter (fun x => key x == L)) = [] then none
      else some ((xs.filter (fun x => key x == L)).map val) := by
  intro xs
  induction xs using List.reverseRecOn with
  | nil => intro L; simp [bucketFold]
  | append_singleton xs x ih =>
    intro L
    have hstep : bucketFold key val (xs ++ [x]) =
        mset (bucketFold key val xs) (key x)
          ((mget (bucketFold key val xs) (key x)).getD [] ++ [val x]) := by
      unfold bucketFold
      rw [List.foldl_append]
      rfl
    rw [hstep, List.filter_append]
    by_cases hL : key x = L
    · have hfx : (List.filter (fun y => key y == L) [x]) = [x] := by
        simp [hL]
      rw [hfx, hL, mget_mset_self]
      rw [ih L]
      by_cases hxs : (xs.filter (fun y => key y == L)) = []
      · rw [if_pos hxs, hxs]
        rw [if_neg (by simp)]
        simp
      · rw [if_neg hxs]
        rw [if_neg (by simp [hxs])]
        simp
    · have hfx : (List.filter (fun y => key y == L) [x]) = [] := by
        simp [hL]
      rw [hfx, List.append_nil]
      rw [mget_mset_ne _ _ _ _ (fun hc => hL hc.symm)]
      exact ih L

/-- The per-bucket assignment list produced by the inner `forEach`. -/
def bucketAssign (reorder : List String → List String)
    (posOf : Nat × List String → Nat → γ) (lv : Nat × List String) :
    List (String × γ) :=
  (List.enumFrom 0 (reorder lv.2)).map (fun p => (p.2, posOf lv p.1))

theorem bucketAssign_keys (reorder : List String → List String)
    (posOf : Nat × List String → Nat → γ) (lv : Nat × List String) :
    (bucketAssign reorder posOf lv).map Prod.fst = reorder lv.2 := by
  unfold bucketAssign
  rw [List.map_map]
  have h : (Prod.fst ∘ fun p : Nat × String => (p.2, posOf lv p.1)) = Prod.snd := rfl
  rw [h]
  exact List.enumFrom_map_snd 0 (reorder lv.2)

theorem enumFrom_mset_fold (posOf' : Nat → γ) :
    ∀ (ids : List String) (i : Nat) (pos : List (String × γ)),
    ids.Nodup → (∀ x ∈ ids, mget pos x = none) →
    (List.enumFrom i ids).foldl (fun pos p => mset pos p.2 (posOf' p.1)) pos =
      pos ++ (List.enumFrom i ids).map (fun p => (p.2, posOf' p.1)) := by
  intro ids
  induction ids with
  | nil => intro i pos _ _; simp
  | cons x xs ih =>
    intro i pos hnd hfresh
    rw [List.enumFrom_cons]
    simp only [List.foldl_cons, List.map_cons]
    have hx : mget pos x = none := hfresh x (List.mem_cons_self _ _)
    have hstep : mset pos x (posOf' i) = pos ++ [(x, posOf' i)] :=
      mset_absent_append pos x (posOf' i) hx
    rw [hstep]
    rw [ih (i + 1) (pos ++ [(x, posOf' i)]) (List.nodup_cons.mp hnd).2 ?_]
    · simp
    · intro x' hx'
      rw [mget_append]
      rw [hfresh x' (List.mem_cons_of_mem x hx')]
      have hxx : x' ≠ x := by
        intro hc
        subst hc
        exact (List.nodup_cons.mp hnd).1 hx'
      show mget [(x, posOf' i)] x' = none
      simp only [mget, mget_nil]
      rw [if_neg (fun hc => hxx hc.symm)]

theorem layout_fold_flatten (reorder : List String → List String)
    (posOf : Nat × List String → Nat → γ) :
    ∀ (buckets : List (Nat × List String)) (pos : List (String × γ)),
    (buckets.flatMap (fun lv => reorder lv.2)).Nodup →
    (∀ x ∈ buckets.flatMap (fun lv => reorder lv.2), mget pos x = none) →
    buckets.foldl (fun pos lv =>
        (List.enumFrom 0 (reorder lv.2)).foldl
          (fun pos p => mset pos p.2 (posOf lv p.1)) pos) pos =
      pos ++ buckets.flatMap (fun lv => bucketAssign reorder posOf lv) := by
  intro buckets
  induction buckets with
  | nil => intro pos _ _; simp
  | cons lv rest ih =>
    intro pos hnd hfresh
    rw [List.flatMap_cons] at hnd hfresh
    have hparts := List.nodup_append.mp hnd
    simp only [List.foldl_cons, List.flatMap_cons]
    rw [enumFrom_mset_fold (fun i => posOf lv i) (reorder lv.2) 0 pos hparts.1
      (fun x hx => hfresh x (List.mem_append.mpr (Or.inl hx)))]
    have hassign : (List.enumFrom 0 (reorder lv.2)).map
        (fun p => (p.2, posOf lv p.1)) = bucketAssign reorder posOf lv := rfl
    rw [hassign]
    rw [ih (pos ++ bucketAssign reorder posOf lv) hparts.2.1 ?_]
    · rw [List.append_assoc]
    · intro x hx
      rw [mget_append]
      rw [hfresh x (List.mem_append.mpr (Or.inr hx))]
      have hxk : x ∉ (bucketAssign reorder posOf lv).map Prod.fst := by
        rw [bucketAssign_keys]
        intro hc
        exact hparts.2.2 hc hx
      rw [(mget_eq_none _ _).mpr hxk]

/-- The final position of a node placed at index `j` of its (reordered)
bucket. -/
theorem layout_fold_mget (reorder : List String → List String)
    (posOf : Nat × List String → Nat → γ) (buckets : List (Nat × List String))
    (hnd : (buckets.flatMap (fun lv => reorder lv.2)).Nodup)
    (lv : Nat × List String) (hlv : lv ∈ buckets) (j : Nat) (id : String)
    (hj : (reorder lv.2).get? j = some id) :
    mget (buckets.foldl (fun pos lv =>
      (List.enumFrom 0 (reorder lv.2)).foldl
        (fun pos p => mset pos p.2 (posOf lv p.1)) pos)
      ([] : List (String × γ))) id = some (posOf lv j) := by
  rw [layout_fold_flatten reorder posOf buckets [] hnd (by intro x _; rfl)]
  simp only [List.nil_append]
  have hmem : (id, posOf lv j) ∈
      buckets.flatMap (fun lv => bucketAssign reorder posOf lv) := by
    rw [List.mem_flatMap]
    refine ⟨lv, hlv, ?_⟩
    unfold bucketAssign
    rw [List.mem_map]
    exact ⟨(j, id), List.mk_mem_enum_iff_get?.mpr hj, rfl⟩
  have hkeys : ((buckets.flatMap
      (fun lv => bucketAssign reorder posOf lv)).map Prod.fst).Nodup := by
    rw [List.map_flatMap]
    have h : (fun lv => (bucketAssign reorder posOf lv).map Prod.fst) =
        (fun lv : Nat × List String => reorder lv.2) :=
      funext (fun lv => bucketAssign_keys reorder posOf lv)
    rw [h]
    exact hnd
  exact mget_of_mem_nodupKeys _ id (posOf lv j) hmem hkeys

/-!  ### Locating metric keys among the snapshot's node ids  -/

theorem mset_keys_sub [DecidableEq α] (m : List (α × β)) (k0 : α) (v : β) (k : α)
    (h : k ∈ (mset m k0 v).map Prod.fst) : k ∈ m.map Prod.fst ∨ k = k0 := by
  rw [mset_keys] at h
  by_cases hk : k0 ∈ m.map Prod.fst
  · rw [if_pos hk] at h
    exact Or.inl h
  · rw [if_neg hk] at h
    rcases List.mem_append.mp h with h | h
    · exact Or.inl h
    · exact Or.inr (List.mem_singleton.mp h)

theorem metricsStep_deg_keys_sub (dm : List (String × Nat) × List (String × List String))
    (e : GEdge) (k : String) (h : k ∈ (metricsStep dm e).1.map Prod.fst) :
    k ∈ dm.1.map Prod.fst ∨ k = e.src ∨ k = e.dst := by
  simp only [metricsStep] at h
  rcases mset_keys_sub _ _ _ _ h with h | rfl
  · rcases mset_keys_sub _ _ _ _ h with h | rfl
    · have hsub : ∀ (m : List (String × Nat)) (k0 : String),
          k ∈ (if (mget m k0).isSome then m else mset m k0 0).map Prod.fst →
          k ∈ m.map Prod.fst ∨ k = k0 := by
        intro m k0 hh
        split at hh
        · exact Or.inl hh
        · exact mset_keys_sub _ _ _ _ hh
      rcases hsub _ e.dst h with h | rfl
      · rcases hsub _ e.src h with h | rfl
        · exact Or.inl h
        · exact Or.inr (Or.inl rfl)
      · exact Or.inr (Or.inr rfl)
    · exact Or.inr (Or.inl rfl)
  · exact Or.inr (Or.inr rfl)

theorem degrees_keys_sub (g : Graph) (k : String)
    (h : k ∈ (buildMetrics g).degrees.map Prod.fst) :
    k ∈ g.nodes.map GNode.id ∨ ∃ e ∈ g.edges, k = e.src ∨ k = e.dst := by
  have hfold : ∀ (es : List GEdge) (dm : List (String × Nat) × List (String × List String)),
      k ∈ ((es.foldl metricsStep dm).1.map Prod.fst) →
      k ∈ dm.1.map Prod.fst ∨ ∃ e ∈ es, k = e.src ∨ k = e.dst := by
    intro es
    induction es with
    | nil => intro dm hh; exact Or.inl hh
    | cons e rest ih =>
      intro dm hh
      simp only [List.foldl_cons] at hh
      rcases ih (metricsStep dm e) hh with hh | ⟨e', he', hk⟩
      · rcases metricsStep_deg_keys_sub dm e k hh with hh | hk
        · exact Or.inl hh
        · exact Or.inr ⟨e, List.mem_cons_self _ _, hk⟩
      · exact Or.inr ⟨e', List.mem_cons_of_mem _ he', hk⟩
  have hinit : ∀ (ns : List GNode) (dm : List (String × Nat) × List (String × List String)),
      k ∈ ((ns.foldl (fun dm node => (mset dm.1 node.id 0, mset dm.2 node.id [])) dm).1.map
        Prod.fst) →
      k ∈ dm.1.map Prod.fst ∨ ∃ n ∈ ns, k = n.id := by
    intro ns
    induction ns with
    | nil => intro dm hh; exact Or.inl hh
    | cons n rest ih =>
      intro dm hh
      simp only [List.foldl_cons] at hh
      rcases ih _ hh with hh | ⟨n', hn', hk⟩
      · rcases mset_keys_sub _ _ _ _ hh with hh | rfl
        · exact Or.inl hh
        · exact Or.inr ⟨n, List.mem_cons_self _ _, rfl⟩
      · exact Or.inr ⟨n', List.mem_cons_of_mem _ hn', hk⟩
  have h1 : k ∈ ((g.edges.foldl metricsStep (initMetrics g.nodes)).1.map Prod.fst) := h
  rcases hfold g.edges (initMetrics g.nodes) h1 with hh | he
  · rcases hinit g.nodes ([], []) hh with hh | ⟨n, hn, rfl⟩
    · cases hh
    · exact Or.inl (List.mem_map.mpr ⟨n, hn, rfl⟩)
  · exact Or.inr he

/-- The hub (when present) is one of the snapshot's node ids, provided every
edge endpoint is listed among the nodes. -/
theorem hub_mem_nodeIds (g : Graph) (hb : String)
    (hhub : (buildMetrics g).hubId = some hb)
    (hwf : ∀ e ∈ g.edges, e.src ∈ g.nodes.map GNode.id ∧ e.dst ∈ g.nodes.map GNode.id) :
    hb ∈ g.nodes.map GNode.id := by
  rcases pickFrom_spec (buildMetrics g).degrees (none, -1) with ⟨heq, _⟩ |
    ⟨h, dh, l₁, l₂, hsplit, heq, _, _, _⟩
  · have hnone : (buildMetrics g).hubId = (none : Option String) := by
      show (pickFrom (none, -1) (buildMetrics g).degrees).1 = none
      rw [heq]
    rw [hnone] at hhub
    cases hhub
  · have hsome : (buildMetrics g).hubId = some h := by
      show (pickFrom (none, -1) (buildMetrics g).degrees).1 = some h
      rw [heq]
    rw [hsome] at hhub
    cases Option.some_inj.mp hhub
    have hmem : hb ∈ (buildMetrics g).degrees.map Prod.fst := by
      rw [hsplit, List.map_append]
      exact List.mem_append.mpr (Or.inr (by simp))
    rcases degrees_keys_sub g hb hmem with hh | ⟨e, he, hk⟩
    · exact hh
    · rcases hk with rfl | rfl
      · exact (hwf e he).1
      · exact (hwf e he).2

/-- Every string in the adjacency universe is an edge endpoint. -/
theorem univ_sub_endpoints (g : Graph) (y : String)
    (hy : y ∈ univOf (buildMetrics g).adjacency) :
    ∃ e ∈ g.edges, y = e.src ∨ y = e.dst := by
  unfold univOf at hy
  rw [List.mem_flatten] at hy
  obtain ⟨l, hl, hyl⟩ := hy
  rw [List.mem_map] at hl
  obtain ⟨⟨k, l'⟩, hkl, rfl⟩ := hl
  have hget : y ∈ adjGet (buildMetrics g).adjacency k := by
    have hnd : ((buildMetrics g).adjacency.map Prod.fst).Nodup := by
      show (((metricsPair g).2).map Prod.fst).Nodup
      unfold metricsPair
      rw [foldl_metricsStep_snd]
      unfold initMetrics
      rw [initMetrics_snd]
      have hstep : ∀ (E : List GEdge) (A : List (String × List String)),
          (A.map Prod.fst).Nodup → ((E.foldl adjStep A).map Prod.fst).Nodup := by
        intro E
        induction E with
        | nil => intro A h; exact h
        | cons e rest ih =>
          intro A h
          simp only [List.foldl_cons]
          refine ih _ ?_
          unfold adjStep adjEnsure
          refine mset_keys_nodup _ _ _ (mset_keys_nodup _ _ _ ?_)
          split
          · split
            · exact h
            · exact mset_keys_nodup _ _ _ h
          · split
            · exact mset_keys_nodup _ _ _ h
            · exact mset_keys_nodup _ _ _ (mset_keys_nodup _ _ _ h)
      refine hstep g.edges _ ?_
      have hinitk : ∀ (ns : List GNode) (A : List (String × List String)),
          (A.map Prod.fst).Nodup →
          ((ns.foldl (fun A node => mset A node.id []) A).map Prod.fst).Nodup := by
        intro ns
        induction ns with
        | nil => intro A h; exact h
        | cons n rest ih =>
          intro A h
          simp only [List.foldl_cons]
          exact ih _ (mset_keys_nodup _ _ _ h)
      exact hinitk g.nodes [] (by simp)
    have := mget_of_mem_nodupKeys _ k l' hkl hnd
    unfold adjGet
    rw [this]
    exact hyl
  have hadj := (buildMetrics_adj_mem g k y).mp hget
  obtain ⟨e, he, hcase⟩ := hadj
  rcases hcase with ⟨_, h2⟩ | ⟨h2, _⟩
  · exact ⟨e, he, Or.inr h2.symm⟩
  · exact ⟨e, he, Or.inl h2.symm⟩

/-- Under the snapshot well-formedness invariant, every key of the distance
map is a node id. -/
theorem distances_keys_sub_nodeIds (g : Graph) (hb : String)
    (hhub : (buildMetrics g).hubId = some hb)
    (hwf : ∀ e ∈ g.edges, e.src ∈ g.nodes.map GNode.id ∧ e.dst ∈ g.nodes.map GNode.id)
    (n : String) (hn : (mget (buildMetrics g).distances n).isSome) :
    n ∈ g.nodes.map GNode.id := by
  rcases (buildMetrics_inv g hb hhub).keysSub n hn with rfl | hu
  · exact hub_mem_nodeIds g n hhub hwf
  · obtain ⟨e, he, hk⟩ := univ_sub_endpoints g n hu
    rcases hk with rfl | rfl
    · exact (hwf e he).1
    · exact (hwf e he).2

/-!  ### Sorted, duplicate-free, downward-closed level lists  -/

theorem nodup_const_singleton [DecidableEq α] (l : List α) (a : α) (hnd : l.Nodup)
    (hc : ∀ x ∈ l, x = a) (hne : l ≠ []) : l = [a] := by
  cases l with
  | nil => exact absurd rfl hne
  | cons x xs =>
    have hx : x = a := hc x (List.mem_cons_self _ _)
    subst hx
    cases xs with
    | nil => rfl
    | cons y ys =>
      have hy : y = x := hc y (List.mem_cons_of_mem _ (List.mem_cons_self _ _))
      subst hy
      exact absurd (List.mem_cons_self y ys) (List.nodup_cons.mp hnd).1

theorem sorted_nodup_downward_eq_range (l : List Nat) (hnd : l.Nodup)
    (hsort : l.Pairwise (· ≤ ·))
    (hdc : ∀ j k, k ∈ l → j ≤ k → j ∈ l) :
    l = List.range l.length := by
  have hbound : ∀ j ∈ l, j < l.length := by
    intro j hj
    by_contra hge
    push_neg at hge
    have hsub : ∀ x ∈ List.range (j + 1), x ∈ l := by
      intro x hx
      exact hdc x j hj (Nat.lt_succ_iff.mp (List.mem_range.mp hx))
    have := nodup_subset_length (List.range (j + 1)) l (List.nodup_range (j + 1)) hsub
    rw [List.length_range] at this
    omega
  have hmemiff : ∀ a, a ∈ l ↔ a ∈ List.range l.length := by
    have hsubl : l.toFinset ⊆ (List.range l.length).toFinset := by
      intro a ha
      rw [List.mem_toFinset] at ha ⊢
      exact List.mem_range.mpr (hbound a ha)
    have hcard1 : l.toFinset.card = l.length := List.toFinset_card_of_nodup hnd
    have hcard2 : (List.range l.length).toFinset.card = l.length := by
      rw [List.toFinset_card_of_nodup (List.nodup_range l.length), List.length_range]
    have heq : l.toFinset = (List.range l.length).toFinset :=
      Finset.eq_of_subset_of_card_le hsubl (by omega)
    intro a
    rw [← List.mem_toFinset, ← List.mem_toFinset (l := List.range l.length), heq]
  refine List.eq_of_perm_of_sorted ?_ hsort ?_
  · exact (List.perm_ext_iff_of_nodup hnd (List.nodup_range l.length)).mpr hmemiff
  · exact List.Pairwise.imp (fun h => le_of_lt h) (List.pairwise_lt_range l.length)

theorem filter_pos_range : ∀ n : Nat,
    (List.range n).filter (fun x => decide (1 ≤ x)) =
      (List.range (n - 1)).map (fun x => x + 1) := by
  intro n
  induction n with
  | zero => rfl
  | succ m ih =>
    rw [List.range_succ, List.filter_append]
    cases m with
    | zero => rfl
    | succ m' =>
      rw [ih]
      have hm : (List.filter (fun x => decide (1 ≤ x)) [m' + 1]) = [m' + 1] := by
        simp
      rw [hm]
      have : m' + 1 + 1 - 1 = m' + 1 := rfl
      rw [this]
      rw [List.range_succ, List.map_append]
      rfl

theorem indexOf_map_add_one : ∀ (l : List Nat) (a : Nat),
    (l.map (fun x => x + 1)).indexOf (a + 1) = l.indexOf a := by
  intro l
  induction l with
  | nil => intro a; rfl
  | cons x xs ih =>
    intro a
    simp only [List.map_cons, List.indexOf_cons]
    have hbeq : ((x + 1 : Nat) == a + 1) = (x == a) := by
      by_cases h : x = a
      · subst h; simp
      · have h1 : ((x : Nat) == a) = false := by simp [h]
        have h2 : ((x + 1 : Nat) == a + 1) = false := by simp [h]
        rw [h1, h2]
    rw [hbeq]
    cases hxa : ((x : Nat) == a)
    · rw [cond_false, cond_false, ih]
    · rw [cond_true, cond_true]

theorem indexOf_range : ∀ (n a : Nat), a < n → (List.range n).indexOf a = a := by
  intro n
  induction n with
  | zero => intro a ha; omega
  | succ m ih =>
    intro a ha
    rw [List.range_succ_eq_map]
    cases a with
    | zero => rfl
    | succ b =>
      simp only [List.indexOf_cons]
      have h0 : ((0 : Nat) == b + 1) = false := by simp
      rw [h0, cond_false]
      have hmap : (List.map Nat.succ (List.range m)) =
          (List.range m).map (fun x => x + 1) := rfl
      rw [hmap, indexOf_map_add_one, ih b (by omega)]

/-- In a sorted duplicate-free downward-closed list of levels, the 1-based
position of a level `L ≥ 1` among the entries `≥ 1` is `L` itself. -/
theorem downward_ring_index (l : List Nat) (hnd : l.Nodup)
    (hsort : l.Pairwise (· ≤ ·))
    (hdc : ∀ j k, k ∈ l → j ≤ k → j ∈ l) (L : Nat) (hL : L ∈ l) (h1 : 1 ≤ L) :
    (l.filter (fun x => decide (1 ≤ x))).indexOf L + 1 = L := by
  rw [sorted_nodup_downward_eq_range l hnd hsort hdc] at hL ⊢
  rw [filter_pos_range]
  have hlen : L < l.length := List.mem_range.mp hL
  have hLsub : L = (L - 1) + 1 := by omega
  rw [hLsub, indexOf_map_add_one, indexOf_range (l.length - 1) (L - 1) (by omega)]

/-!  ### C8: the focused radial layout (`computeFocusedLayout`)  -/

/-- A computed position.  The level-`0` / unreachable branch and the hub
fallback store cartesian coordinates; ring nodes store the radius and the
angle, the latter as its coefficient of `π` (`computeFocusedLayout` sets
`angle = angleStep · index − π/2` with `angleStep = 2π / ids.length`, so the
coefficient is `2 · index / ids.length − 1/2`). -/
inductive Pos where
  | cart (x y : ℚ)
  | polar (radius anglePi : ℚ)
deriving DecidableEq

/-- The cartesian point a position denotes
(`x: Math.cos(angle) * radius`, `y: Math.sin(angle) * radius`). -/
noncomputable def toXY : Pos → ℝ × ℝ
  | Pos.cart x y => ((x : ℝ), (y : ℝ))
  | Pos.polar r a => (Real.cos ((a : ℝ) * Real.pi) * (r : ℝ),
      Real.sin ((a : ℝ) * Real.pi) * (r : ℝ))

/-- `Math.min(width, height)` with `clientWidth || 640` and
`clientHeight || 480`. -/
def minDim (width height : ℚ) : ℚ :=
  min (if width = 0 then 640 else width) (if height = 0 then 480 else height)

/-- `baseRadius = Math.min(width, height) * 0.22`. -/
def baseRadiusOf (width height : ℚ) : ℚ := minDim width height * (22 / 100)

/-- `radiusStep = Math.min(width, height) * 0.18`. -/
def radiusStepOf (width height : ℚ) : ℚ := minDim width height * (18 / 100)

/-- The position the `sortedLevels.forEach` body assigns to the node at
`index` of the bucket `lv = (level, ids)`. -/
def focusedPosOf (baseRadius radiusStep : ℚ) (lv : Nat × List String)
    (index : Nat) : Pos :=
  if lv.1 = 0 ∨ lv.1 = maxSafeInteger then
    Pos.cart ((index : ℚ) * 40) ((index : ℚ) * 40)
  else
    Pos.polar (baseRadius + radiusStep * ((lv.1 : ℚ) - 1))
      (2 * (index : ℚ) / (lv.2.length : ℚ) - 1 / 2)

/-- The `levelMap` of `computeFocusedLayout`: node ids bucketed by their
level (`distances.has(id) ? distances.get(id) : Number.MAX_SAFE_INTEGER`). -/
def levelMapOf (nodes : List GNode) (metrics : Metrics) :
    List (Nat × List String) :=
  bucketFold (fun node => (mget metrics.distances node.id).getD maxSafeInteger)
    GNode.id nodes

/-- `[...levelMap.entries()].sort((a, b) => a[0] - b[0])`. -/
def sortedLevelsOf (nodes : List GNode) (metrics : Metrics) :
    List (Nat × List String) :=
  sortByLe (fun a b => decide (a.1 ≤ b.1)) (levelMapOf nodes metrics)

/-- The `sortedLevels.forEach` placement loop. -/
def focusedFold (baseRadius radiusStep : ℚ)
    (buckets : List (Nat × List String)) : List (String × Pos) :=
  buckets.foldl (fun pos lv =>
    (List.enumFrom 0 lv.2).foldl
      (fun pos p => mset pos p.2 (focusedPosOf baseRadius radiusStep lv p.1))
      pos) []

/-- The position map before the hub fallback. -/
def focusedPositions (width height : ℚ) (nodes : List GNode)
    (metrics : Metrics) : List (String × Pos) :=
  focusedFold (baseRadiusOf width height) (radiusStepOf width height)
    (sortedLevelsOf nodes metrics)

/-- `computeFocusedLayout` of `src/public/app.js`; `width`/`height` are the
container's client dimensions (`0` when unset). -/
def computeFocusedLayout (width height : ℚ) (nodes : List GNode)
    (metrics : Metrics) : List (String × Pos) :=
  if nodes.length = 0 then [] else
  match metrics.hubId with
  | none => focusedPositions width height nodes metrics
  | some hb =>
    if hb ≠ ("") ∧ (mget (focusedPositions width height nodes metrics) hb).isNone
    then mset (focusedPositions width height nodes metrics) hb (Pos.cart 0 0)
    else focusedPositions width height nodes metrics

/-- The spec's ring of a level: ids of the snapshot's nodes at level `L`, in
snapshot order. -/
def ringIds (g : Graph) (L : Nat) : List String :=
  (g.nodes.filter (fun n => levelOf g n.id == L)).map GNode.id

/-- The spec's "sorted finite levels": the distinct non-sentinel levels of
the snapshot's nodes, ascending. -/
def finiteLevels (g : Graph) : List Nat :=
  sortByLe (fun a b => decide (a ≤ b))
    (((g.nodes.map (fun n => levelOf g n.id)).filter
      (fun L => decide (L ≠ maxSafeInteger))).dedup)

/-- The spec's `ringIndex`: the 1-based position of a level among the sorted
finite ring levels (level `0` is the hub at the origin, not a ring). -/
def ringIndex (g : Graph) (L : Nat) : Nat :=
  ((finiteLevels g).filter (fun x => decide (1 ≤ x))).indexOf L + 1

theorem ringIds_level (g : Graph) (L : Nat) (id : String)
    (h : id ∈ ringIds g L) :
    levelOf g id = L ∧ ∃ n ∈ g.nodes, n.id = id := by
  unfold ringIds at h
  rw [List.mem_map] at h
  obtain ⟨n, hn, rfl⟩ := h
  rw [List.mem_filter] at hn
  exact ⟨by simpa using hn.2, n, hn.1, rfl⟩

theorem ringIds_nodup (g : Graph) (hnd : (g.nodes.map GNode.id).Nodup)
    (L : Nat) : (ringIds g L).Nodup := by
  unfold ringIds
  exact ((List.filter_sublist g.nodes).map GNode.id).nodup hnd

theorem levelMap_mget (g : Graph) (L : Nat) :
    mget (levelMapOf g.nodes (buildMetrics g)) L =
      if ringIds g L = [] then none else some (ringIds g L) := by
  unfold levelMapOf
  rw [bucket_mget]
  unfold ringIds levelOf
  by_cases h : (g.nodes.filter
      (fun n => (mget (buildMetrics g).distances n.id).getD maxSafeInteger == L)) = []
  · rw [if_pos h, h]
    simp
  · rw [if_neg h, if_neg (by simp [h])]

theorem levelMap_content (g : Graph) (L : Nat) (ids : List String)
    (h : (L, ids) ∈ levelMapOf g.nodes (buildMetrics g)) : ids = ringIds g L := by
  have hnd : ((levelMapOf g.nodes (buildMetrics g)).map Prod.fst).Nodup :=
    bucketFold_keys_nodup _ _ _
  have hget := mget_of_mem_nodupKeys _ L ids h hnd
  rw [levelMap_mget g L] at hget
  by_cases hne : ringIds g L = []
  · rw [if_pos hne] at hget
    cases hget
  · rw [if_neg hne] at hget
    exact (Option.some_inj.mp hget).symm

theorem ring_bucket_mem (g : Graph) (L : Nat) (hne : ringIds g L ≠ []) :
    (L, ringIds g L) ∈ sortedLevelsOf g.nodes (buildMetrics g) := by
  have h := levelMap_mget g L
  rw [if_neg hne] at h
  exact ((sortByLe_perm _ _).mem_iff).mpr (mget_some_mem _ _ _ h)

theorem ring_bucket_content (g : Graph) (L : Nat) (ids : List String)
    (h : (L, ids) ∈ sortedLevelsOf g.nodes (buildMetrics g)) :
    ids = ringIds g L :=
  levelMap_content g L ids ((sortByLe_perm _ _).mem_iff.mp h)

theorem flatMap_eq_flatten_map (f : α → List β) :
    ∀ l : List α, l.flatMap f = (l.map f).flatten := by
  intro l
  induction l with
  | nil => rfl
  | cons x xs ih => simp [List.flatMap_cons, ih]

theorem focused_flat_nodup (g : Graph) (hnd : (g.nodes.map GNode.id).Nodup) :
    ((sortedLevelsOf g.nodes (buildMetrics g)).flatMap (fun lv => lv.2)).Nodup := by
  rw [flatMap_eq_flatten_map, List.nodup_flatten]
  constructor
  · intro s hs
    rw [List.mem_map] at hs
    obtain ⟨lv, hlv, rfl⟩ := hs
    rw [ring_bucket_content g lv.1 lv.2 hlv]
    exact ringIds_nodup g hnd lv.1
  · rw [List.pairwise_map]
    have hkeys : (levelMapOf g.nodes (buildMetrics g)).Pairwise
        (fun a b => a.1 ≠ b.1) :=
      List.pairwise_map.mp (bucketFold_keys_nodup _ _ _)
    have hdisj : (levelMapOf g.nodes (buildMetrics g)).Pairwise
        (fun a b => List.Disjoint a.2 b.2) := by
      refine hkeys.imp_of_mem ?_
      intro a b ha hb hne x hxa hxb
      have hca := levelMap_content g a.1 a.2 ha
      have hcb := levelMap_content g b.1 b.2 hb
      rw [hca] at hxa
      rw [hcb] at hxb
      have h1 := (ringIds_level g a.1 x hxa).1
      have h2 := (ringIds_level g b.1 x hxb).1
      exact hne (by rw [← h1, ← h2])
    have hperm : (levelMapOf g.nodes (buildMetrics g)).Perm
        (sortedLevelsOf g.nodes (buildMetrics g)) := (sortByLe_perm _ _).symm
    refine (hperm.pairwise_iff ?_).mp hdisj
    intro a b hab
    exact List.Disjoint.symm hab

theorem finiteLevels_mem (g : Graph) (L : Nat) :
    L ∈ finiteLevels g ↔
      (∃ n ∈ g.nodes, levelOf g n.id = L) ∧ L ≠ maxSafeInteger := by
  unfold finiteLevels
  rw [(sortByLe_perm _ _).mem_iff, List.mem_dedup, List.mem_filter]
  constructor
  · rintro ⟨hm, hd⟩
    rw [List.mem_map] at hm
    obtain ⟨n, hn, hl⟩ := hm
    exact ⟨⟨n, hn, hl⟩, of_decide_eq_true hd⟩
  · rintro ⟨⟨n, hn, hl⟩, hd⟩
    exact ⟨List.mem_map.mpr ⟨n, hn, hl⟩, decide_eq_true hd⟩

theorem finiteLevels_nodup (g : Graph) : (finiteLevels g).Nodup :=
  (sortByLe_perm _ _).nodup_iff.mpr (List.nodup_dedup _)

theorem finiteLevels_sorted (g : Graph) :
    (finiteLevels g).Pairwise (· ≤ ·) := by
  have h := sortByLe_sorted (fun a b : Nat => decide (a ≤ b))
    (fun a b c h1 h2 => decide_eq_true
      (le_trans (of_decide_eq_true h1) (of_decide_eq_true h2)))
    (fun a b => by
      rcases le_total a b with h | h
      · exact Or.inl (decide_eq_true h)
      · exact Or.inr (decide_eq_true h))
    (((g.nodes.map (fun n => levelOf g n.id)).filter
      (fun L => decide (L ≠ maxSafeInteger))).dedup)
  exact h.imp (fun hab => of_decide_eq_true hab)

theorem finiteLevels_downward (g : Graph) (hb : String)
    (hhub : (buildMetrics g).hubId = some hb)
    (hwf : ∀ e ∈ g.edges,
      e.src ∈ g.nodes.map GNode.id ∧ e.dst ∈ g.nodes.map GNode.id)
    (hsize : 2 * g.edges.length + 2 < 2 ^ 53) :
    ∀ j k, k ∈ finiteLevels g → j ≤ k → j ∈ finiteLevels g := by
  intro j k hk hjk
  rw [finiteLevels_mem] at hk ⊢
  obtain ⟨⟨n, hn, hlev⟩, hkne⟩ := hk
  have hatt : mget (buildMetrics g).distances n.id = some k := by
    unfold levelOf at hlev
    cases hg : mget (buildMetrics g).distances n.id with
    | none =>
      rw [hg] at hlev
      exact absurd hlev.symm hkne
    | some d =>
      rw [hg] at hlev
      simp only [Option.getD_some] at hlev
      rw [hlev]
  have hinv := buildMetrics_inv g hb hhub
  obtain ⟨m, hm⟩ := bfs_contiguous _ _ _ hinv k n.id hatt j hjk
  have hmem := distances_keys_sub_nodeIds g hb hhub hwf m (by rw [hm]; rfl)
  rw [List.mem_map] at hmem
  obtain ⟨n', hn', hid⟩ := hmem
  refine ⟨⟨n', hn', ?_⟩, ?_⟩
  · unfold levelOf
    rw [hid, hm]
    rfl
  · exact Nat.ne_of_lt (attained_lt_maxSafe g hb hhub hsize m j hm)

theorem ringIndex_eq (g : Graph) (hb : String)
    (hhub : (buildMetrics g).hubId = some hb)
    (hwf : ∀ e ∈ g.edges,
      e.src ∈ g.nodes.map GNode.id ∧ e.dst ∈ g.nodes.map GNode.id)
    (hsize : 2 * g.edges.length + 2 < 2 ^ 53)
    (L : Nat) (hL1 : 1 ≤ L) (hmem : L ∈ finiteLevels g) :
    ringIndex g L = L := by
  unfold ringIndex
  exact downward_ring_index (finiteLevels g) (finiteLevels_nodup g)
    (finiteLevels_sorted g) (finiteLevels_downward g hb hhub hwf hsize)
    L hmem hL1

theorem ring_zero_singleton (g : Graph) (hb : String)
    (hhub : (buildMetrics g).hubId = some hb)
    (hnd : (g.nodes.map GNode.id).Nodup)
    (hwf : ∀ e ∈ g.edges,
      e.src ∈ g.nodes.map GNode.id ∧ e.dst ∈ g.nodes.map GNode.id) :
    ringIds g 0 = [hb] := by
  have hinv := buildMetrics_inv g hb hhub
  have hbmem : hb ∈ ringIds g 0 := by
    have hmem := hub_mem_nodeIds g hb hhub hwf
    rw [List.mem_map] at hmem
    obtain ⟨n, hn, hid⟩ := hmem
    have hlv : levelOf g n.id = 0 := by
      unfold levelOf
      rw [hid, hinv.hub0]
      rfl
    refine List.mem_map.mpr ⟨n, List.mem_filter.mpr ⟨hn, ?_⟩, hid⟩
    rw [hlv]
    rfl
  refine nodup_const_singleton _ _ (ringIds_nodup g hnd 0) ?_ ?_
  · intro x hx
    have h1 := (ringIds_level g 0 x hx).1
    unfold levelOf at h1
    cases hg : mget (buildMetrics g).distances x with
    | none =>
      rw [hg] at h1
      have : maxSafeInteger ≠ 0 := by
        unfold maxSafeInteger
        norm_num
      exact absurd h1 this
    | some d =>
      rw [hg] at h1
      simp only [Option.getD_some] at h1
      rw [h1] at hg
      exact hinv.zeroOnly x hg
  · intro hemp
    rw [hemp] at hbmem
    exact absurd hbmem (List.not_mem_nil hb)

theorem focusedFold_mget (g : Graph) (hnd : (g.nodes.map GNode.id).Nodup)
    (bR rS : ℚ) (lv : Nat × List String)
    (hlv : lv ∈ sortedLevelsOf g.nodes (buildMetrics g)) (j : Nat) (id : String)
    (hj : lv.2.get? j = some id) :
    mget (focusedFold bR rS (sortedLevelsOf g.nodes (buildMetrics g))) id =
      some (focusedPosOf bR rS lv j) :=
  layout_fold_mget (fun l => l) (focusedPosOf bR rS)
    (sortedLevelsOf g.nodes (buildMetrics g)) (focused_flat_nodup g hnd)
    lv hlv j id hj

theorem focused_hub_pos (g : Graph) (hb : String) (width height : ℚ)
    (hhub : (buildMetrics g).hubId = some hb)
    (hnd : (g.nodes.map GNode.id).Nodup)
    (hwf : ∀ e ∈ g.edges,
      e.src ∈ g.nodes.map GNode.id ∧ e.dst ∈ g.nodes.map GNode.id) :
    mget (focusedPositions width height g.nodes (buildMetrics g)) hb =
      some (Pos.cart 0 0) := by
  have hzero := ring_zero_singleton g hb hhub hnd hwf
  have hmem : ((0 : Nat), ringIds g 0) ∈
      sortedLevelsOf g.nodes (buildMetrics g) := by
    refine ring_bucket_mem g 0 ?_
    rw [hzero]
    simp
  have h := focusedFold_mget g hnd (baseRadiusOf width height)
    (radiusStepOf width height) (0, ringIds g 0) hmem 0 hb (by rw [hzero]; rfl)
  show mget (focusedFold (baseRadiusOf width height) (radiusStepOf width height)
    (sortedLevelsOf g.nodes (buildMetrics g))) hb = some (Pos.cart 0 0)
  rw [h]
  simp [focusedPosOf]

theorem computeFocusedLayout_eq (g : Graph) (hb : String) (width height : ℚ)
    (hhub : (buildMetrics g).hubId = some hb)
    (hnd : (g.nodes.map GNode.id).Nodup)
    (hwf : ∀ e ∈ g.edges,
      e.src ∈ g.nodes.map GNode.id ∧ e.dst ∈ g.nodes.map GNode.id) :
    computeFocusedLayout width height g.nodes (buildMetrics g) =
      focusedPositions width height g.nodes (buildMetrics g) := by
  have hne : ¬ g.nodes.length = 0 := by
    have hmem := hub_mem_nodeIds g hb hhub hwf
    cases hnn : g.nodes with
    | nil =>
      rw [hnn] at hmem
      cases hmem
    | cons a l => simp
  have hpos := focused_hub_pos g hb width height hhub hnd hwf
  unfold computeFocusedLayout
  rw [if_neg hne, hhub]
  show (if hb ≠ ("") ∧
      (mget (focusedPositions width height g.nodes (buildMetrics g)) hb).isNone = true
    then mset (focusedPositions width height g.nodes (buildMetrics g)) hb (Pos.cart 0 0)
    else focusedPositions width height g.nodes (buildMetrics g)) =
    focusedPositions width height g.nodes (buildMetrics g)
  rw [if_neg]
  rintro ⟨_, h2⟩
  rw [hpos] at h2
  cases h2

/-- C8: with a hub present and a well-formed snapshot of sane size, the
focused radial layout places the hub at the origin; every node of a finite
level `L ≥ 1` — the `j`-th entry of that level's ring, counted in snapshot
order — is placed at the common radius
`baseRadius + ringStep · (ringIndex − 1)` (with `ringIndex` the level's
1-based position among the sorted finite ring levels), at the evenly spaced
angle `2π · j / count − π/2`; and every polar position denotes a cartesian
point whose squared distance from the origin is the squared radius. -/
theorem focused_layout_correct (g : Graph) (hb : String) (width height : ℚ)
    (hhub : (buildMetrics g).hubId = some hb)
    (hnd : (g.nodes.map GNode.id).Nodup)
    (hwf : ∀ e ∈ g.edges,
      e.src ∈ g.nodes.map GNode.id ∧ e.dst ∈ g.nodes.map GNode.id)
    (hsize : 2 * g.edges.length + 2 < 2 ^ 53) :
    mget (computeFocusedLayout width height g.nodes (buildMetrics g)) hb =
        some (Pos.cart 0 0) ∧
      toXY (Pos.cart 0 0) = ((0 : ℝ), (0 : ℝ)) ∧
      (∀ L, 1 ≤ L → L ≠ maxSafeInteger → ∀ j id,
        (ringIds g L).get? j = some id →
        mget (computeFocusedLayout width height g.nodes (buildMetrics g)) id =
          some (Pos.polar
            (baseRadiusOf width height +
              radiusStepOf width height * ((ringIndex g L : ℚ) - 1))
            (2 * (j : ℚ) / ((ringIds g L).length : ℚ) - 1 / 2))) ∧
      ∀ r a, (toXY (Pos.polar r a)).1 ^ 2 + (toXY (Pos.polar r a)).2 ^ 2 =
        (r : ℝ) ^ 2 := by
  refine ⟨?_, ?_, ?_, ?_⟩
  · rw [computeFocusedLayout_eq g hb width height hhub hnd hwf]
    exact focused_hub_pos g hb width height hhub hnd hwf
  · show (((0 : ℚ) : ℝ), ((0 : ℚ) : ℝ)) = ((0 : ℝ), (0 : ℝ))
    norm_num
  · intro L hL1 hLf j id hj
    have hidmem : id ∈ ringIds g L := List.get?_mem hj
    have hne : ringIds g L ≠ [] := by
      intro hc
      rw [hc] at hidmem
      exact absurd hidmem (List.not_mem_nil id)
    have hmem := ring_bucket_mem g L hne
    have h := focusedFold_mget g hnd (baseRadiusOf width height)
      (radiusStepOf width height) (L, ringIds g L) hmem j id hj
    rw [computeFocusedLayout_eq g hb width height hhub hnd hwf]
    show mget (focusedFold (baseRadiusOf width height)
      (radiusStepOf width height) (sortedLevelsOf g.nodes (buildMetrics g))) id = _
    rw [h]
    have hLmem : L ∈ finiteLevels g := by
      rw [finiteLevels_mem]
      obtain ⟨hlv, n, hn, hid⟩ := ringIds_level g L id hidmem
      exact ⟨⟨n, hn, by rw [hid]; exact hlv⟩, hLf⟩
    have hIdx : ringIndex g L = L := ringIndex_eq g hb hhub hwf hsize L hL1 hLmem
    rw [hIdx]
    unfold focusedPosOf
    rw [if_neg]
    rintro (h0 | hmax)
    · omega
    · exact hLf hmax
  · intro r a
    have hs := Real.sin_sq_add_cos_sq ((a : ℝ) * Real.pi)
    show (Real.cos ((a : ℝ) * Real.pi) * (r : ℝ)) ^ 2 +
      (Real.sin ((a : ℝ) * Real.pi) * (r : ℝ)) ^ 2 = (r : ℝ) ^ 2
    calc (Real.cos ((a : ℝ) * Real.pi) * (r : ℝ)) ^ 2 +
        (Real.sin ((a : ℝ) * Real.pi) * (r : ℝ)) ^ 2 =
        (Real.sin ((a : ℝ) * Real.pi) ^ 2 + Real.cos ((a : ℝ) * Real.pi) ^ 2) *
          (r : ℝ) ^ 2 := by ring
      _ = 1 * (r : ℝ) ^ 2 := by rw [hs]
      _ = (r : ℝ) ^ 2 := one_mul _

/-- Witness for C8 on `pathGraph` with unset container dimensions. -/
theorem focused_layout_correct_witness :
    ((buildMetrics pathGraph).hubId = some ("a") ∧
      (pathGraph.nodes.map GNode.id).Nodup ∧
      (∀ e ∈ pathGraph.edges, e.src ∈ pathGraph.nodes.map GNode.id ∧
        e.dst ∈ pathGraph.nodes.map GNode.id) ∧
      2 * pathGraph.edges.length + 2 < 2 ^ 53) ∧
    mget (computeFocusedLayout 0 0 pathGraph.nodes (buildMetrics pathGraph))
      ("a") = some (Pos.cart 0 0) :=
  ⟨⟨by decide, by decide, by decide, by decide⟩,
    (focused_layout_correct pathGraph ("a") 0 0 (by decide) (by decide)
      (by decide) (by decide)).1⟩

/-!  ### C9: the hierarchical layered layout (`computeHierarchyLayout`)  -/

/-- The first `nodes.forEach` of `computeHierarchyLayout`: nodes with a BFS
distance get it as level; `maxKnownLevel` tracks the largest one. -/
def hierarchyPass1 (nodes : List GNode) (distances : List (String × Nat)) :
    List (String × Nat) × Nat :=
  nodes.foldl (fun acc node =>
    match mget distances node.id with
    | some level => (mset acc.1 node.id level, max acc.2 level)
    | none => acc) ([], 0)

/-- The second `nodes.forEach`: each still-unassigned node gets the next
fresh level `maxKnownLevel + 1, maxKnownLevel + 2, …`. -/
def hierarchyAssignments (nodes : List GNode)
    (distances : List (String × Nat)) : List (String × Nat) :=
  (nodes.foldl (fun acc node =>
    if (mget acc.1 node.id).isSome then acc
    else (mset acc.1 node.id acc.2, acc.2 + 1))
    ((hierarchyPass1 nodes distances).1,
      (hierarchyPass1 nodes distances).2 + 1)).1

/-- `levelBuckets`: ids bucketed by assigned level, in assignment order. -/
def hierarchyBuckets (assigns : List (String × Nat)) :
    List (Nat × List String) :=
  bucketFold Prod.snd Prod.fst assigns

/-- The per-bucket
`ids.sort((a, b) => (degrees.get(b) || 0) - (degrees.get(a) || 0))`
comparator as a stable boolean `le`. -/
def degLe (degrees : List (String × Nat)) (a b : String) : Bool :=
  decide ((mget degrees b).getD 0 ≤ (mget degrees a).getD 0)

/-- The position the hierarchy `sortedLevels.forEach` body assigns to the
node at `index` of the bucket `lv = (level, ids)`
(`layerHeight = nodeSpacing = 160`). -/
def hierarchyPosOf (count : Nat) (lv : Nat × List String) (index : Nat) :
    ℚ × ℚ :=
  (((index : ℚ) - ((lv.2.length : ℚ) - 1) / 2) * 160,
   ((lv.1 : ℚ) - ((count : ℚ) - 1) / 2) * 160)

/-- `[...levelBuckets.entries()].sort((a, b) => a[0] - b[0])`. -/
def hierarchySorted (nodes : List GNode) (metrics : Metrics) :
    List (Nat × List String) :=
  sortByLe (fun a b => decide (a.1 ≤ b.1))
    (hierarchyBuckets (hierarchyAssignments nodes metrics.distances))

/-- The position map before the hub centering. -/
def hierarchyPositions (nodes : List GNode) (metrics : Metrics) :
    List (String × (ℚ × ℚ)) :=
  (hierarchySorted nodes metrics).foldl (fun pos lv =>
    (List.enumFrom 0 (sortByLe (degLe metrics.degrees) lv.2)).foldl
      (fun pos p =>
        mset pos p.2 (hierarchyPosOf (hierarchySorted nodes metrics).length lv p.1))
      pos) []

/-- `computeHierarchyLayout` of `src/public/app.js`. -/
def computeHierarchyLayout (nodes : List GNode) (metrics : Metrics) :
    List (String × (ℚ × ℚ)) :=
  if nodes.length = 0 then [] else
  match metrics.hubId with
  | none => hierarchyPositions nodes metrics
  | some hb =>
    if hb ≠ ("") ∧ (mget (hierarchyPositions nodes metrics) hb).isSome then
      mset (hierarchyPositions nodes metrics) hb
        (0, ((mget (hierarchyPositions nodes metrics) hb).getD (0, 0)).2)
    else hierarchyPositions nodes metrics

/-- The x-coordinates assigned to a list of ids. -/
def layerXs (pos : List (String × (ℚ × ℚ))) (ids : List String) : List ℚ :=
  ids.filterMap (fun id => (mget pos id).map Prod.fst)

theorem filterMap_congr_map (l : List α) (F : α → Option β) (G : α → β)
    (h : ∀ x ∈ l, F x = some (G x)) : l.filterMap F = l.map G := by
  induction l with
  | nil => rfl
  | cons x xs ih =>
    simp only [List.filterMap_cons, h x (List.mem_cons_self _ _), List.map_cons]
    rw [ih (fun y hy => h y (List.mem_cons_of_mem _ hy))]

theorem mset_self_eq [DecidableEq α] : ∀ (m : List (α × β)) (k : α) (v : β),
    mget m k = some v → mset m k v = m := by
  intro m
  induction m with
  | nil => intro k v h; cases h
  | cons p r ih =>
    intro k v h
    obtain ⟨k₀, v₀⟩ := p
    simp only [mget] at h
    simp only [mset]
    by_cases h0 : k₀ = k
    · rw [if_pos h0] at h
      rw [if_pos h0, h0, Option.some_inj.mp h]
    · rw [if_neg h0] at h
      rw [if_neg h0, ih k v h]

theorem hierarchyAssignments_keys_nodup (nodes : List GNode)
    (distances : List (String × Nat)) :
    ((hierarchyAssignments nodes distances).map Prod.fst).Nodup := by
  have h1 : ∀ (l : List GNode) (acc : List (String × Nat) × Nat),
      (acc.1.map Prod.fst).Nodup →
      ((l.foldl (fun acc node =>
        match mget distances node.id with
        | some level => (mset acc.1 node.id level, max acc.2 level)
        | none => acc) acc).1.map Prod.fst).Nodup := by
    intro l
    induction l with
    | nil => intro acc h; exact h
    | cons n rest ih =>
      intro acc h
      simp only [List.foldl_cons]
      cases hd : mget distances n.id with
      | some level => exact ih _ (mset_keys_nodup _ _ _ h)
      | none => exact ih _ h
  have h2 : ∀ (l : List GNode) (acc : List (String × Nat) × Nat),
      (acc.1.map Prod.fst).Nodup →
      ((l.foldl (fun acc node =>
        if (mget acc.1 node.id).isSome then acc
        else (mset acc.1 node.id acc.2, acc.2 + 1)) acc).1.map Prod.fst).Nodup := by
    intro l
    induction l with
    | nil => intro acc h; exact h
    | cons n rest ih =>
      intro acc h
      simp only [List.foldl_cons]
      by_cases hS : (mget acc.1 n.id).isSome = true
      · rw [if_pos hS]
        exact ih _ h
      · rw [if_neg hS]
        exact ih _ (mset_keys_nodup _ _ _ h)
  exact h2 nodes _ (h1 nodes ([], 0) (by simp))

theorem hierarchyAssignments_val (nodes : List GNode)
    (distances : List (String × Nat)) (id : String) (L : Nat)
    (h : mget (hierarchyAssignments nodes distances) id = some L) :
    mget distances id = some L ∨ 1 ≤ L := by
  have h1 : ∀ (l : List GNode) (acc : List (String × Nat) × Nat),
      (∀ id L, mget acc.1 id = some L → mget distances id = some L) →
      ∀ id L, mget (l.foldl (fun acc node =>
        match mget distances node.id with
        | some level => (mset acc.1 node.id level, max acc.2 level)
        | none => acc) acc).1 id = some L → mget distances id = some L := by
    intro l
    induction l with
    | nil => intro acc hacc; exact hacc
    | cons n rest ih =>
      intro acc hacc
      simp only [List.foldl_cons]
      cases hd : mget distances n.id with
      | none => exact ih _ hacc
      | some level =>
        refine ih _ ?_
        intro id L hL
        by_cases hid : id = n.id
        · subst hid
          rw [mget_mset_self] at hL
          rw [hd, Option.some_inj.mp hL]
        · rw [mget_mset_ne _ _ _ _ hid] at hL
          exact hacc id L hL
  have h2 : ∀ (l : List GNode) (acc : List (String × Nat) × Nat),
      1 ≤ acc.2 →
      (∀ id L, mget acc.1 id = some L → mget distances id = some L ∨ 1 ≤ L) →
      ∀ id L, mget (l.foldl (fun acc node =>
        if (mget acc.1 node.id).isSome then acc
        else (mset acc.1 node.id acc.2, acc.2 + 1)) acc).1 id = some L →
        mget distances id = some L ∨ 1 ≤ L := by
    intro l
    induction l with
    | nil => intro acc _ hacc; exact hacc
    | cons n rest ih =>
      intro acc h2acc hacc
      simp only [List.foldl_cons]
      by_cases hS : (mget acc.1 n.id).isSome = true
      · rw [if_pos hS]
        exact ih _ h2acc hacc
      · rw [if_neg hS]
        refine ih _ (by omega) ?_
        intro id L hL
        by_cases hid : id = n.id
        · subst hid
          rw [mget_mset_self] at hL
          right
          have := Option.some_inj.mp hL
          omega
        · rw [mget_mset_ne _ _ _ _ hid] at hL
          exact hacc id L hL
  unfold hierarchyAssignments at h
  refine h2 nodes _ (by omega) ?_ id L h
  intro id' L' hL'
  refine Or.inl (h1 nodes ([], 0) ?_ id' L' hL')
  intro id'' L'' hx
  simp at hx

theorem hierarchyAssignments_hub (g : Graph) (hb : String)
    (hhub : (buildMetrics g).hubId = some hb)
    (hwf : ∀ e ∈ g.edges,
      e.src ∈ g.nodes.map GNode.id ∧ e.dst ∈ g.nodes.map GNode.id) :
    mget (hierarchyAssignments g.nodes (buildMetrics g).distances) hb =
      some 0 := by
  have hinv := buildMetrics_inv g hb hhub
  have hd0 : mget (buildMetrics g).distances hb = some 0 := hinv.hub0
  have h1 : ∀ (l : List GNode) (acc : List (String × Nat) × Nat),
      ((∃ n ∈ l, n.id = hb) ∨ mget acc.1 hb = some 0) →
      mget (l.foldl (fun acc node =>
        match mget (buildMetrics g).distances node.id with
        | some level => (mset acc.1 node.id level, max acc.2 level)
        | none => acc) acc).1 hb = some 0 := by
    intro l
    induction l with
    | nil =>
      intro acc hc
      rcases hc with ⟨n, hn, _⟩ | hc
      · exact absurd hn (List.not_mem_nil n)
      · exact hc
    | cons n rest ih =>
      intro acc hc
      simp only [List.foldl_cons]
      rcases hc with ⟨n', hn', hid⟩ | hc
      · rcases List.mem_cons.mp hn' with rfl | hrest
        · rw [hid, hd0]
          exact ih _ (Or.inr (mget_mset_self _ _ _))
        · exact ih _ (Or.inl ⟨n', hrest, hid⟩)
      · cases hd : mget (buildMetrics g).distances n.id with
        | none => exact ih _ (Or.inr hc)
        | some level =>
          refine ih _ (Or.inr ?_)
          by_cases hidn : n.id = hb
          · have hl0 : level = 0 := by
              rw [hidn] at hd
              rw [hd0] at hd
              exact (Option.some_inj.mp hd).symm
            rw [hidn, hl0]
            exact mget_mset_self _ _ _
          · rw [mget_mset_ne _ _ _ _ (fun hh => hidn hh.symm)]
            exact hc
  have h2 : ∀ (l : List GNode) (acc : List (String × Nat) × Nat),
      mget acc.1 hb = some 0 →
      mget (l.foldl (fun acc node =>
        if (mget acc.1 node.id).isSome then acc
        else (mset acc.1 node.id acc.2, acc.2 + 1)) acc).1 hb = some 0 := by
    intro l
    induction l with
    | nil => intro acc h; exact h
    | cons n rest ih =>
      intro acc h
      simp only [List.foldl_cons]
      by_cases hS : (mget acc.1 n.id).isSome = true
      · rw [if_pos hS]
        exact ih _ h
      · rw [if_neg hS]
        refine ih _ ?_
        by_cases hidn : n.id = hb
        · rw [hidn] at hS
          rw [h] at hS
          exact absurd rfl hS
        · rw [mget_mset_ne _ _ _ _ (fun hh => hidn hh.symm)]
          exact h
  unfold hierarchyAssignments
  refine h2 g.nodes _ ?_
  show mget (hierarchyPass1 g.nodes (buildMetrics g).distances).1 hb = some 0
  unfold hierarchyPass1
  have hmem := hub_mem_nodeIds g hb hhub hwf
  rw [List.mem_map] at hmem
  obtain ⟨n, hn, hid⟩ := hmem
  exact h1 g.nodes ([], 0) (Or.inl ⟨n, hn, hid⟩)

theorem hierarchyBuckets_keys_nodup (assigns : List (String × Nat)) :
    ((hierarchyBuckets assigns).map Prod.fst).Nodup :=
  bucketFold_keys_nodup Prod.snd Prod.fst assigns

theorem hierarchyBuckets_mget (assigns : List (String × Nat)) (L : Nat) :
    mget (hierarchyBuckets assigns) L =
      if (assigns.filter (fun kv => Prod.snd kv == L)).map Prod.fst = []
      then none
      else some ((assigns.filter (fun kv => Prod.snd kv == L)).map Prod.fst) := by
  unfold hierarchyBuckets
  rw [bucket_mget]
  by_cases h : assigns.filter (fun kv => Prod.snd kv == L) = []
  · rw [if_pos h, h]
    simp
  · rw [if_neg h, if_neg (by simp [h])]

theorem hierarchyBuckets_content (assigns : List (String × Nat))
    (lv : Nat × List String) (hlv : lv ∈ hierarchyBuckets assigns) :
    lv.2 = (assigns.filter (fun kv => Prod.snd kv == lv.1)).map Prod.fst := by
  have hget : mget (hierarchyBuckets assigns) lv.1 = some lv.2 :=
    mget_of_mem_nodupKeys _ lv.1 lv.2 hlv (hierarchyBuckets_keys_nodup assigns)
  rw [hierarchyBuckets_mget] at hget
  by_cases h : (assigns.filter (fun kv => Prod.snd kv == lv.1)).map Prod.fst = []
  · rw [if_pos h] at hget
    cases hget
  · rw [if_neg h] at hget
    exact (Option.some_inj.mp hget).symm

theorem hierarchy_bucket_val (assigns : List (String × Nat))
    (hnd : (assigns.map Prod.fst).Nodup) (lv : Nat × List String)
    (hlv : lv ∈ hierarchyBuckets assigns) (id : String) (hid : id ∈ lv.2) :
    mget assigns id = some lv.1 := by
  rw [hierarchyBuckets_content assigns lv hlv] at hid
  rw [List.mem_map] at hid
  obtain ⟨kv, hkv, hfst⟩ := hid
  rw [List.mem_filter] at hkv
  have h2 : kv.2 = lv.1 := by simpa using hkv.2
  refine mget_of_mem_nodupKeys _ id lv.1 ?_ hnd
  rw [← hfst, ← h2]
  exact hkv.1

theorem hierarchy_flat_nodup (assigns : List (String × Nat))
    (hnd : (assigns.map Prod.fst).Nodup) (degrees : List (String × Nat)) :
    ((sortByLe (fun a b => decide (a.1 ≤ b.1))
        (hierarchyBuckets assigns)).flatMap
      (fun lv => sortByLe (degLe degrees) lv.2)).Nodup := by
  rw [flatMap_eq_flatten_map, List.nodup_flatten]
  constructor
  · intro s hs
    rw [List.mem_map] at hs
    obtain ⟨lv, hlv, rfl⟩ := hs
    refine (sortByLe_perm _ _).nodup_iff.mpr ?_
    have hlv' : lv ∈ hierarchyBuckets assigns := (sortByLe_perm _ _).mem_iff.mp hlv
    rw [hierarchyBuckets_content assigns lv hlv']
    exact ((List.filter_sublist assigns).map Prod.fst).nodup hnd
  · rw [List.pairwise_map]
    have hkeys : (hierarchyBuckets assigns).Pairwise (fun a b => a.1 ≠ b.1) :=
      List.pairwise_map.mp (hierarchyBuckets_keys_nodup assigns)
    have hdisj : (hierarchyBuckets assigns).Pairwise
        (fun a b => List.Disjoint (sortByLe (degLe degrees) a.2)
          (sortByLe (degLe degrees) b.2)) := by
      refine hkeys.imp_of_mem ?_
      intro a b ha hb hne x hxa hxb
      have hxa' : x ∈ a.2 := (sortByLe_perm _ _).mem_iff.mp hxa
      have hxb' : x ∈ b.2 := (sortByLe_perm _ _).mem_iff.mp hxb
      have hv1 := hierarchy_bucket_val assigns hnd a ha x hxa'
      have hv2 := hierarchy_bucket_val assigns hnd b hb x hxb'
      rw [hv1] at hv2
      exact hne (Option.some_inj.mp hv2)
    refine ((sortByLe_perm _ _).symm.pairwise_iff ?_).mp hdisj
    intro a b hab
    exact List.Disjoint.symm hab

theorem hierarchyPositions_mget (g : Graph) (lv : Nat × List String)
    (hlv : lv ∈ hierarchySorted g.nodes (buildMetrics g)) (j : Nat)
    (id : String)
    (hj : (sortByLe (degLe (buildMetrics g).degrees) lv.2).get? j = some id) :
    mget (hierarchyPositions g.nodes (buildMetrics g)) id =
      some (hierarchyPosOf (hierarchySorted g.nodes (buildMetrics g)).length
        lv j) :=
  layout_fold_mget (sortByLe (degLe (buildMetrics g).degrees))
    (hierarchyPosOf (hierarchySorted g.nodes (buildMetrics g)).length)
    (hierarchySorted g.nodes (buildMetrics g))
    (hierarchy_flat_nodup _ (hierarchyAssignments_keys_nodup _ _) _)
    lv hlv j id hj

theorem hierarchy_pos_spec (g : Graph) (id : String) (p : ℚ × ℚ)
    (hp : mget (hierarchyPositions g.nodes (buildMetrics g)) id = some p) :
    ∃ lv ∈ hierarchySorted g.nodes (buildMetrics g),
      id ∈ lv.2 ∧ ∃ j, p =
        hierarchyPosOf (hierarchySorted g.nodes (buildMetrics g)).length lv j := by
  unfold hierarchyPositions at hp
  rw [layout_fold_flatten (sortByLe (degLe (buildMetrics g).degrees))
    (hierarchyPosOf (hierarchySorted g.nodes (buildMetrics g)).length)
    (hierarchySorted g.nodes (buildMetrics g)) []
    (hierarchy_flat_nodup _ (hierarchyAssignments_keys_nodup _ _) _)
    (by intro x _; rfl)] at hp
  simp only [List.nil_append] at hp
  have hmem := mget_some_mem _ _ _ hp
  rw [List.mem_flatMap] at hmem
  obtain ⟨lv, hlv, hin⟩ := hmem
  unfold bucketAssign at hin
  rw [List.mem_map] at hin
  obtain ⟨q, hq, heq⟩ := hin
  obtain ⟨hid, hpos⟩ := Prod.mk.inj heq
  refine ⟨lv, hlv, ?_, q.1, hpos.symm⟩
  have hq2 : q.2 ∈ (List.enumFrom 0
      (sortByLe (degLe (buildMetrics g).degrees) lv.2)).map Prod.snd :=
    List.mem_map_of_mem Prod.snd hq
  rw [List.enumFrom_map_snd] at hq2
  rw [hid] at hq2
  exact (sortByLe_perm _ _).mem_iff.mp hq2

theorem hierarchy_pos_layer (g : Graph) (id : String) (p : ℚ × ℚ)
    (hp : mget (hierarchyPositions g.nodes (buildMetrics g)) id = some p) :
    ∃ L, mget (hierarchyAssignments g.nodes (buildMetrics g).distances) id =
        some L ∧
      p.2 = ((L : ℚ) -
        (((hierarchySorted g.nodes (buildMetrics g)).length : ℚ) - 1) / 2) *
        160 := by
  obtain ⟨lv, hlv, hid, j, hpj⟩ := hierarchy_pos_spec g id p hp
  refine ⟨lv.1, ?_, ?_⟩
  · exact hierarchy_bucket_val _ (hierarchyAssignments_keys_nodup _ _) lv
      ((sortByLe_perm _ _).mem_iff.mp hlv) id hid
  · rw [hpj]
    rfl

theorem hierarchy_zero_bucket (g : Graph) (hb : String)
    (hhub : (buildMetrics g).hubId = some hb)
    (hwf : ∀ e ∈ g.edges,
      e.src ∈ g.nodes.map GNode.id ∧ e.dst ∈ g.nodes.map GNode.id) :
    ((hierarchyAssignments g.nodes (buildMetrics g).distances).filter
      (fun kv => Prod.snd kv == 0)).map Prod.fst = [hb] := by
  have hinv := buildMetrics_inv g hb hhub
  have hnd := hierarchyAssignments_keys_nodup g.nodes (buildMetrics g).distances
  have hhb := hierarchyAssignments_hub g hb hhub hwf
  refine nodup_const_singleton _ _
    (((List.filter_sublist _).map Prod.fst).nodup hnd) ?_ ?_
  · intro x hx
    rw [List.mem_map] at hx
    obtain ⟨kv, hkv, hfst⟩ := hx
    rw [List.mem_filter] at hkv
    have h2 : kv.2 = 0 := by simpa using hkv.2
    have hmx : mget (hierarchyAssignments g.nodes (buildMetrics g).distances)
        x = some 0 := by
      refine mget_of_mem_nodupKeys _ x 0 ?_ hnd
      rw [← hfst, ← h2]
      exact hkv.1
    rcases hierarchyAssignments_val _ _ x 0 hmx with hx0 | hge
    · exact hinv.zeroOnly x hx0
    · exact absurd hge (by omega)
  · intro hemp
    have hbm : hb ∈ ((hierarchyAssignments g.nodes
        (buildMetrics g).distances).filter
        (fun kv => Prod.snd kv == 0)).map Prod.fst := by
      refine List.mem_map.mpr ⟨(hb, 0),
        List.mem_filter.mpr ⟨mget_some_mem _ _ _ hhb, rfl⟩, rfl⟩
    rw [hemp] at hbm
    exact absurd hbm (List.not_mem_nil hb)

theorem hierarchy_zero_mem (g : Graph) (hb : String)
    (hhub : (buildMetrics g).hubId = some hb)
    (hwf : ∀ e ∈ g.edges,
      e.src ∈ g.nodes.map GNode.id ∧ e.dst ∈ g.nodes.map GNode.id) :
    ((0 : Nat), [hb]) ∈ hierarchySorted g.nodes (buildMetrics g) := by
  have h := hierarchyBuckets_mget
    (hierarchyAssignments g.nodes (buildMetrics g).distances) 0
  rw [hierarchy_zero_bucket g hb hhub hwf] at h
  rw [if_neg (by simp)] at h
  exact (sortByLe_perm _ _).mem_iff.mpr (mget_some_mem _ _ _ h)

theorem hierarchy_hub_pos (g : Graph) (hb : String)
    (hhub : (buildMetrics g).hubId = some hb)
    (hwf : ∀ e ∈ g.edges,
      e.src ∈ g.nodes.map GNode.id ∧ e.dst ∈ g.nodes.map GNode.id) :
    mget (hierarchyPositions g.nodes (buildMetrics g)) hb =
      some ((0 : ℚ), ((0 : ℚ) -
        (((hierarchySorted g.nodes (buildMetrics g)).length : ℚ) - 1) / 2) *
        160) := by
  have hmem := hierarchy_zero_mem g hb hhub hwf
  have h := hierarchyPositions_mget g (0, [hb]) hmem 0 hb rfl
  rw [h]
  show some (hierarchyPosOf _ _ _) = _
  unfold hierarchyPosOf
  norm_num

theorem computeHierarchyLayout_eq (g : Graph) (hb : String)
    (hhub : (buildMetrics g).hubId = some hb)
    (hwf : ∀ e ∈ g.edges,
      e.src ∈ g.nodes.map GNode.id ∧ e.dst ∈ g.nodes.map GNode.id) :
    computeHierarchyLayout g.nodes (buildMetrics g) =
      hierarchyPositions g.nodes (buildMetrics g) := by
  have hne : ¬ g.nodes.length = 0 := by
    have hmem := hub_mem_nodeIds g hb hhub hwf
    cases hnn : g.nodes with
    | nil =>
      rw [hnn] at hmem
      cases hmem
    | cons a l => simp
  have hpos := hierarchy_hub_pos g hb hhub hwf
  unfold computeHierarchyLayout
  rw [if_neg hne, hhub]
  show (if hb ≠ ("") ∧
      (mget (hierarchyPositions g.nodes (buildMetrics g)) hb).isSome = true
    then mset (hierarchyPositions g.nodes (buildMetrics g)) hb
      (0, ((mget (hierarchyPositions g.nodes (buildMetrics g)) hb).getD
        (0, 0)).2)
    else hierarchyPositions g.nodes (buildMetrics g)) =
    hierarchyPositions g.nodes (buildMetrics g)
  by_cases hbe : hb = ("")
  · rw [if_neg]
    rintro ⟨h1, _⟩
    exact h1 hbe
  · rw [if_pos ⟨hbe, by rw [hpos]; rfl⟩]
    exact mset_self_eq _ _ _ (by rw [hpos]; rfl)

theorem canon_sym (m : Nat) :
    (((List.range m).map
      (fun j : Nat => ((j : ℚ) - ((m : ℚ) - 1) / 2) * 160)).map
        (fun x : ℚ => -x)).Perm
      ((List.range m).map
        (fun j : Nat => ((j : ℚ) - ((m : ℚ) - 1) / 2) * 160)) := by
  have hswap : ((List.range m).map (fun j => m - 1 - j)).Perm (List.range m) := by
    refine (List.perm_ext_iff_of_nodup ?_ (List.nodup_range m)).mpr ?_
    · refine (List.nodup_range m).map_on ?_
      intro x hx y hy hxy
      have hxm := List.mem_range.mp hx
      have hym := List.mem_range.mp hy
      omega
    · intro a
      constructor
      · intro ha
        rw [List.mem_map] at ha
        obtain ⟨j, hj, rfl⟩ := ha
        have := List.mem_range.mp hj
        exact List.mem_range.mpr (by omega)
      · intro ha
        have ham := List.mem_range.mp ha
        exact List.mem_map.mpr
          ⟨m - 1 - a, List.mem_range.mpr (by omega), by omega⟩
  have hrev : ((List.range m).map
      (fun j : Nat => ((j : ℚ) - ((m : ℚ) - 1) / 2) * 160)).map
        (fun x : ℚ => -x) =
      ((List.range m).map (fun j => m - 1 - j)).map
        (fun j : Nat => ((j : ℚ) - ((m : ℚ) - 1) / 2) * 160) := by
    apply List.ext_get
    · simp
    · intro i h1 h2
      simp only [List.get_eq_getElem, List.getElem_map, List.getElem_range]
      have him : i < m := by simpa using h2
      have hc : ((m - 1 - i : Nat) : ℚ) = (m : ℚ) - 1 - (i : ℚ) := by
        rw [Nat.cast_sub (by omega : i ≤ m - 1),
          Nat.cast_sub (by omega : 1 ≤ m)]
        norm_num
      rw [hc]
      ring
  rw [hrev]
  exact hswap.map _

theorem hierarchy_layer_canon (g : Graph) (lv : Nat × List String)
    (hlv : lv ∈ hierarchySorted g.nodes (buildMetrics g)) :
    (layerXs (hierarchyPositions g.nodes (buildMetrics g)) lv.2).Perm
      ((List.range lv.2.length).map
        (fun j : Nat => ((j : ℚ) - ((lv.2.length : ℚ) - 1) / 2) * 160)) := by
  have hG : layerXs (hierarchyPositions g.nodes (buildMetrics g)) lv.2 =
      lv.2.map (fun id =>
        ((mget (hierarchyPositions g.nodes (buildMetrics g)) id).getD
          (0, 0)).1) := by
    refine filterMap_congr_map _ _ _ ?_
    intro id hid
    obtain ⟨j, hj⟩ := List.mem_iff_get?.mp ((sortByLe_perm _ _).mem_iff.mpr hid)
    rw [hierarchyPositions_mget g lv hlv j id hj]
    rfl
  have heq : (sortByLe (degLe (buildMetrics g).degrees) lv.2).map (fun id =>
      ((mget (hierarchyPositions g.nodes (buildMetrics g)) id).getD
        (0, 0)).1) =
      (List.range lv.2.length).map
        (fun j : Nat => ((j : ℚ) - ((lv.2.length : ℚ) - 1) / 2) * 160) := by
    apply List.ext_get
    · simp [(sortByLe_perm (degLe (buildMetrics g).degrees) lv.2).length_eq]
    · intro i h1 h2
      simp only [List.get_eq_getElem, List.getElem_map, List.getElem_range]
      have hi : i < (sortByLe (degLe (buildMetrics g).degrees) lv.2).length := by
        simpa using h1
      have hid := hierarchyPositions_mget g lv hlv i
        ((sortByLe (degLe (buildMetrics g).degrees) lv.2).get ⟨i, hi⟩)
        (List.get?_eq_get hi)
      simp only [List.get_eq_getElem] at hid
      rw [hid]
      rfl
  rw [hG]
  refine (((sortByLe_perm (degLe (buildMetrics g).degrees) lv.2).map _).symm).trans ?_
  rw [heq]

/-- C9: with a hub present and a well-formed snapshot, the hierarchical
layered layout gives two positioned nodes the same y-coordinate exactly when
they carry the same level assignment (their layer), and within each layer the
multiset of assigned x-coordinates is symmetric about `x = 0`. -/
theorem hierarchy_layout_correct (g : Graph) (hb : String)
    (hhub : (buildMetrics g).hubId = some hb)
    (hwf : ∀ e ∈ g.edges,
      e.src ∈ g.nodes.map GNode.id ∧ e.dst ∈ g.nodes.map GNode.id) :
    (∀ id₁ p₁ id₂ p₂,
      mget (computeHierarchyLayout g.nodes (buildMetrics g)) id₁ = some p₁ →
      mget (computeHierarchyLayout g.nodes (buildMetrics g)) id₂ = some p₂ →
      (p₁.2 = p₂.2 ↔
        mget (hierarchyAssignments g.nodes (buildMetrics g).distances) id₁ =
          mget (hierarchyAssignments g.nodes (buildMetrics g).distances) id₂)) ∧
    ∀ lv ∈ hierarchySorted g.nodes (buildMetrics g),
      ((layerXs (computeHierarchyLayout g.nodes (buildMetrics g)) lv.2).map
        (fun x : ℚ => -x)).Perm
        (layerXs (computeHierarchyLayout g.nodes (buildMetrics g)) lv.2) := by
  constructor
  · intro id₁ p₁ id₂ p₂ h₁ h₂
    rw [computeHierarchyLayout_eq g hb hhub hwf] at h₁ h₂
    obtain ⟨L₁, ha₁, hy₁⟩ := hierarchy_pos_layer g id₁ p₁ h₁
    obtain ⟨L₂, ha₂, hy₂⟩ := hierarchy_pos_layer g id₂ p₂ h₂
    rw [ha₁, ha₂, hy₁, hy₂]
    constructor
    · intro hy
      have h160 : (160 : ℚ) ≠ 0 := by norm_num
      have hsub := mul_right_cancel₀ h160 hy
      have hcast : (L₁ : ℚ) = (L₂ : ℚ) := sub_left_inj.mp hsub
      rw [Nat.cast_injective hcast]
    · intro hA
      rw [Option.some_inj.mp hA]
  · intro lv hlv
    rw [computeHierarchyLayout_eq g hb hhub hwf]
    have hcanon := hierarchy_layer_canon g lv hlv
    exact ((hcanon.map _).trans (canon_sym lv.2.length)).trans hcanon.symm

/-- Witness for C9 on `pathGraph`. -/
theorem hierarchy_layout_correct_witness :
    ((buildMetrics pathGraph).hubId = some ("a") ∧
      (∀ e ∈ pathGraph.edges, e.src ∈ pathGraph.nodes.map GNode.id ∧
        e.dst ∈ pathGraph.nodes.map GNode.id)) ∧
    ∀ id₁ p₁ id₂ p₂,
      mget (computeHierarchyLayout pathGraph.nodes (buildMetrics pathGraph))
        id₁ = some p₁ →
      mget (computeHierarchyLayout pathGraph.nodes (buildMetrics pathGraph))
        id₂ = some p₂ →
      (p₁.2 = p₂.2 ↔
        mget (hierarchyAssignments pathGraph.nodes
          (buildMetrics pathGraph).distances) id₁ =
          mget (hierarchyAssignments pathGraph.nodes
            (buildMetrics pathGraph).distances) id₂) :=
  ⟨⟨by decide, by decide⟩,
    (hierarchy_layout_correct pathGraph ("a") (by decide) (by decide)).1⟩

end LinkCloud
